import Mathlib

/-!
# Split-Payment-App: the ledger balance engine of `controllers/expenseController.js`

A shallow embedding of the expense controller (lock helper, budget check,
comment path, balance aggregation and the greedy debt optimizer) together
with the properties proved about it.

Conventions of the embedding
* Amounts are JavaScript numbers, that is IEEE-754 binary64 values, modelled
  by the type `Num`: the controller adds, subtracts and compares them as they
  are, without converting to minor units.
* Times are `Nat` milliseconds since the epoch.
* Object ids (users, groups, expenses) are `Nat`.
* A JavaScript object used as a dictionary (`balances`) is an association
  list in insertion order, which is the order `Object.keys` and
  `Object.entries` enumerate the non-index string keys produced by object ids.
* The record store is a value that the handlers take and return; storage
  failures (the `catch` branches answering 500) are not part of the model.
* Every `new Date()` evaluated while one request is handled returns the same
  instant `now`, which the handler takes as an argument; it is also the
  instant a `save()` of that request writes to `updatedAt`.
* The namespace `Exact` holds the same computations carried out in exact
  integer arithmetic. They are the reference the code is compared with; the
  definitions outside `Exact` are the embedding of the code.
-/

namespace SplitPayment

/-! ## JavaScript numbers -/

/-- The number 1 counted in units of `2^-1074`, the smallest positive
binary64 value: every finite binary64 value is a whole number of such units. -/
def scale : Nat := 1 <<< 1074

/-- The largest finite binary64 value (`Number.MAX_VALUE`), in units of
`2^-1074`: a 53-bit significand of ones at the top exponent. -/
def maxFinite : Nat := (2 ^ 53 - 1) <<< 2045

/-- Search for the spacing of binary64 values around `a`: starting from `u`,
double it until `a` needs at most 53 bits in multiples of it. -/
def ulpFrom (a : Nat) : Nat → Nat → Nat
  | 0, u => u
  | fuel + 1, u => if a < 2 ^ 53 * u then u else ulpFrom a fuel (2 * u)

/-- The spacing of binary64 values around the magnitude `a` (in units of
`2^-1074`): 1 up to 53 bits, then the power of two that leaves 53 bits. -/
def ulp (a : Nat) : Nat := ulpFrom a 2046 1

/-- Round a magnitude to a multiple of its spacing, to nearest, ties to the
even multiple: the default rounding of binary64 arithmetic. -/
def roundNat (a : Nat) : Nat :=
  let u := ulp a
  let q := a / u
  let r := a % u
  if 2 * r < u then q * u
  else if u < 2 * r then (q + 1) * u
  else if q % 2 = 0 then q * u else (q + 1) * u

/-- A JavaScript number. `fin k` is the finite value `k * 2^-1074`, `inf` is
plus or minus `Infinity`, `nan` is `NaN`. The two signed zeros are one value:
the controller never divides and never prints the sign of a zero. The values
that binary64 can hold are the `fin k` that `roundNat` leaves unchanged, up to
`maxFinite`; every operation below returns such a value, an infinity or
`NaN`. -/
inductive Num where
  | fin (k : Int)
  | inf (negative : Bool)
  | nan
  deriving DecidableEq, Repr

namespace Num

/-- The number `0`. -/
def zero : Num := fin 0

/-- The binary64 result of an operation whose exact result is `k` units:
rounded to nearest, and infinite when the rounded magnitude exceeds
`Number.MAX_VALUE`. -/
def round (k : Int) : Num :=
  let v := roundNat k.natAbs
  if maxFinite < v then inf (decide (k < 0))
  else if k < 0 then fin (-(v : Int)) else fin (v : Int)

/-- The number whose value is the integer `n`; it is a binary64 value when
`n` has at most 53 significant bits. -/
def ofInt (n : Int) : Num := fin (n * (scale : Int))

/-- The integer part of a finite number (its value when it is an integer);
0 for infinities and `NaN`. -/
def toInt : Num → Int
  | fin k => k / (scale : Int)
  | _ => 0

/-- The number is finite and within the binary64 range. -/
def isFinite : Num → Bool
  | fin k => decide (k.natAbs ≤ maxFinite)
  | _ => false

/-- The operator `+`. -/
def add : Num → Num → Num
  | nan, _ => nan
  | _, nan => nan
  | inf s, inf t => if s = t then inf s else nan
  | inf s, fin _ => inf s
  | fin _, inf t => inf t
  | fin a, fin b => round (a + b)

/-- The unary operator `-`. -/
def neg : Num → Num
  | fin k => fin (-k)
  | inf s => inf (!s)
  | nan => nan

/-- The operator `-`: in binary64 `x - y` is `x + (-y)`. -/
def sub (x y : Num) : Num := add x (neg y)

/-- The operator `<`; `x > y` is `lt y x`. Any comparison with `NaN` is
false. -/
def lt : Num → Num → Bool
  | fin a, fin b => decide (a < b)
  | fin _, inf negative => !negative
  | inf negative, fin _ => negative
  | inf s, inf t => s && !t
  | _, _ => false

/-- The function `Math.min` of two arguments. -/
def min : Num → Num → Num
  | nan, _ => nan
  | _, nan => nan
  | x, y => if lt y x then y else x

/-- The test `x === 0`. -/
def isZero (x : Num) : Bool := decide (x = zero)

/-- JavaScript truthiness of a number: neither zero nor `NaN`. -/
def truthy : Num → Bool
  | fin k => decide (k ≠ 0)
  | inf _ => true
  | nan => false

/-- The expression `x || 0` for a number `x`. -/
def orZero (x : Num) : Num := if x.truthy then x else zero

end Num

/-! ## Data model (`models/Expense.js`, `models/Group.js`, `models/Settlement.js`) -/

abbrev UserId := Nat

/-- One entry of `splits`: `{ user, amount }`. -/
structure Split where
  user : UserId
  amount : Num
  deriving DecidableEq, Repr

/-- One entry of `comments`: `{ user, text, emoji }`. A missing or empty
string is `none`. -/
structure Comment where
  user : UserId
  text : Option String
  emoji : Option String
  deriving DecidableEq, Repr

/-- The values of the `splitType` enum of the expense schema. -/
inductive SplitType where
  | equal
  | unequal
  | shares
  | exact
  deriving DecidableEq, Repr

/-- An expense document. `createdAt` and `updatedAt` are the two timestamps
of the schema option `timestamps`: the first is set at creation, the second
at creation and again by every `save()` that writes a change. -/
structure Expense where
  id : Nat
  group : Nat
  payer : UserId
  amount : Num
  category : String
  description : Option String
  splitType : SplitType
  splits : List Split
  receipt : Option String
  createdBy : UserId
  comments : List Comment
  locked : Bool
  createdAt : Nat
  updatedAt : Nat
  deriving DecidableEq, Repr

/-- A group document, restricted to the fields the expense controller reads. -/
structure Group where
  id : Nat
  budgetLimit : Option Num
  deriving DecidableEq, Repr

/-- A settlement document; `fromUser` and `toUser` are the schema's `from`
and `to`. -/
structure Settlement where
  group : Nat
  fromUser : UserId
  toUser : UserId
  amount : Num
  note : Option String
  deriving DecidableEq, Repr

/-- The record store: the three collections the controller touches. -/
structure Store where
  expenses : List Expense
  groups : List Group
  settlements : List Settlement
  deriving DecidableEq, Repr

/-! ## The `balances` dictionary -/

/-- A JavaScript object `{ [user]: number }`, in insertion order. -/
abbrev Balances := List (UserId × Num)

namespace Balances

/-- The assignment `balances[u] = f (balances[u] || 0)`: an existing key
keeps its position, a new key is added last. -/
def update (b : Balances) (u : UserId) (f : Num → Num) : Balances :=
  match b with
  | [] => [(u, f Num.zero)]
  | (k, v) :: rest =>
    if k = u then (k, f v.orZero) :: rest else (k, v) :: update rest u f

/-- The assignment `balances[u] = (balances[u] || 0) + x`. -/
def add (b : Balances) (u : UserId) (x : Num) : Balances :=
  b.update u (fun v => Num.add v x)

/-- The assignment `balances[u] = (balances[u] || 0) - x`. -/
def sub (b : Balances) (u : UserId) (x : Num) : Balances :=
  b.update u (fun v => Num.sub v x)

/-- The balance the mapping holds for `u`, zero when `u` is not a key. -/
def get (b : Balances) (u : UserId) : Num :=
  match b with
  | [] => Num.zero
  | (k, v) :: rest => if k = u then v else get rest u

/-- The sum of all balances of the mapping, added up with `+` in key order. -/
def total (b : Balances) : Num := b.foldl (fun acc p => Num.add acc p.2) Num.zero

/-- The members (keys) of the mapping, as `Object.keys` lists them. -/
def users (b : Balances) : List UserId := b.map Prod.fst

end Balances

/-! ## Balance aggregation (`getGroupBalances` lines 104-113, `optimizeDebts` lines 127-133) -/

/-- The inner `exp.splits.forEach`: debit every split from its user. -/
def debitSplits (b : Balances) (splits : List Split) : Balances :=
  splits.foldl (fun acc split => acc.sub split.user split.amount) b

/-- The body of `expenses.forEach`: credit the payer, debit the splits. -/
def applyExpense (b : Balances) (exp : Expense) : Balances :=
  debitSplits (b.add exp.payer exp.amount) exp.splits

/-- The whole `expenses.forEach` over an initially empty `balances`. -/
def computeBalances (expenses : List Expense) : Balances :=
  expenses.foldl applyExpense []

/-! ## The greedy settlement loop (`optimizeDebts` lines 134-153) -/

/-- An element of `creditors` or `debtors`: `{ user, amount }`. -/
structure Party where
  user : UserId
  amount : Num
  deriving DecidableEq, Repr

/-- A settlement instruction `{ from, to, amount }`; `fromUser` and `toUser`
are the fields `from` and `to`. -/
structure Instruction where
  fromUser : UserId
  toUser : UserId
  amount : Num
  deriving DecidableEq, Repr

/-- The `creditors` array built by `users.forEach`: members whose balance
is `> 0`, in key order. -/
def creditorsOf (b : Balances) : List Party :=
  match b with
  | [] => []
  | (u, a) :: rest =>
    if Num.lt Num.zero a then ⟨u, a⟩ :: creditorsOf rest else creditorsOf rest

/-- The `debtors` array built by `users.forEach`: members whose balance is
not `> 0` but `< 0`, stored with the negated amount, in key order. -/
def debtorsOf (b : Balances) : List Party :=
  match b with
  | [] => []
  | (u, a) :: rest =>
    if Num.lt Num.zero a then debtorsOf rest
    else if Num.lt a Num.zero then ⟨u, Num.neg a⟩ :: debtorsOf rest else debtorsOf rest

/-- The variables of the `while` loop. -/
structure LoopState where
  debtors : List Party
  creditors : List Party
  i : Nat
  j : Nat
  settlements : List Instruction
  deriving DecidableEq, Repr

/-- One evaluation of the loop condition followed, when it holds, by one
execution of the loop body; `none` when the condition is false. -/
def loopStep (s : LoopState) : Option LoopState :=
  if h : s.i < s.debtors.length ∧ s.j < s.creditors.length then
    let d := s.debtors.get ⟨s.i, h.1⟩
    let c := s.creditors.get ⟨s.j, h.2⟩
    let pay := Num.min d.amount c.amount
    let settlements := s.settlements ++ [⟨d.user, c.user, pay⟩]
    let debtors := s.debtors.set s.i { d with amount := Num.sub d.amount pay }
    let creditors := s.creditors.set s.j { c with amount := Num.sub c.amount pay }
    let i := if (Num.sub d.amount pay).isZero then s.i + 1 else s.i
    let j := if (Num.sub c.amount pay).isZero then s.j + 1 else s.j
    some ⟨debtors, creditors, i, j, settlements⟩
  else none

/-- The `while` loop run for at most `fuel` iterations: `some s` is the state
in which the loop condition was found false, `none` means the loop was still
running after `fuel` iterations. -/
def whileLoop (fuel : Nat) (s : LoopState) : Option LoopState :=
  match loopStep s with
  | none => some s
  | some s' =>
    match fuel with
    | 0 => none
    | n + 1 => whileLoop n s'

/-- The loop state at `i = 0; j = 0;` for a `balances` object. -/
def initState (b : Balances) : LoopState :=
  ⟨debtorsOf b, creditorsOf b, 0, 0, []⟩

/-- Lines 134-153 of `optimizeDebts`: the settlements computed from a
`balances` object, the loop being given `fuel` iterations. -/
def greedySettle (fuel : Nat) (b : Balances) : Option (List Instruction) :=
  (whileLoop fuel (initState b)).map LoopState.settlements

/-- The number of iterations that suffices when the loop ends at all:
`#creditors + #debtors`. -/
def enoughFuel (b : Balances) : Nat :=
  (creditorsOf b).length + (debtorsOf b).length

/-- The number of members whose balance is not zero. -/
def nonZeroMembers (b : Balances) : Nat := (b.filter (fun p => p.2 ≠ Num.zero)).length

/-! ## The lock helper (`lockIfOld`, lines 6-15) -/

/-- The number of milliseconds in one day, `1000 * 60 * 60 * 24`. -/
def msPerDay : Int := 1000 * 60 * 60 * 24

/-- The test `diffDays > 7` where `diffDays = (now - created) / msPerDay`:
on millisecond timestamps the quotient exceeds 7 exactly when the difference
exceeds seven days' worth of milliseconds. -/
def olderThanSevenDays (now : Nat) (createdAt : Nat) : Bool :=
  decide ((now : Int) - (createdAt : Int) > 7 * msPerDay)

/-- What a call of `lockIfOld` leaves behind: the expense object after the
call and whether `expense.save()` was executed. -/
structure LockResult where
  expense : Expense
  saved : Bool
  deriving DecidableEq, Repr

/-- The helper `lockIfOld`, run at time `now`. The `save()` of line 13 writes
the change of `locked` and, by the schema option `timestamps`, sets
`updatedAt` to the time of the write. -/
def lockIfOld (now : Nat) (expense : Expense) : LockResult :=
  if !expense.locked && olderThanSevenDays now expense.createdAt then
    ⟨{ expense with locked := true, updatedAt := now }, true⟩
  else ⟨expense, false⟩

/-! ## The record store operations used by the controller -/

namespace Store

/-- The lookup `Expense.findById(id)`. -/
def findExpense (st : Store) (id : Nat) : Option Expense :=
  st.expenses.find? (fun e => e.id = id)

/-- The lookup `Group.findById(id)`. -/
def findGroup (st : Store) (id : Nat) : Option Group :=
  st.groups.find? (fun g => g.id = id)

/-- The store after `expense.save()`: the stored document with the same id is
replaced by the in-memory one (whose `updatedAt` the caller has set). -/
def saveExpense (st : Store) (e : Expense) : Store :=
  { st with expenses := st.expenses.map (fun x => if x.id = e.id then e else x) }

/-- The write done by a `lockIfOld` call, if any. -/
def commit (st : Store) (r : LockResult) : Store :=
  if r.saved then st.saveExpense r.expense else st

end Store

/-! ## Responses -/

/-- The JSON bodies the handlers answer with. -/
inductive Body where
  | message (text : String)
  | expenseAdded (expense : Expense) (overLimit : Bool) (total : Num)
      (budgetLimit : Option Num)
  | expense (e : Expense)
  | expenses (l : List Expense)
  | balances (result : Balances)
  | settlements (l : List Instruction)
  | settlement (s : Settlement)
  deriving DecidableEq, Repr

/-- An HTTP answer: status code and JSON body. -/
structure Response where
  status : Nat
  body : Body
  deriving DecidableEq, Repr

/-- JavaScript truthiness of an optional string: present and non-empty. -/
def truthyStr (s : Option String) : Bool :=
  match s with
  | none => false
  | some t => t != ""

/-! ## `addExpense` (lines 17-52) -/

/-- The fields of `req.body` read by `addExpense`. -/
structure AddExpenseRequest where
  groupId : Option Nat
  payer : Option UserId
  amount : Option Num
  category : Option String
  description : Option String
  splitType : Option SplitType
  splits : List Split
  deriving DecidableEq, Repr

/-- The query `Expense.find({ group, createdAt: { $gte: start, $lt: end } })`. -/
def monthExpenses (st : Store) (groupId : Nat) (start stop : Nat) : List Expense :=
  st.expenses.filter (fun e => e.group = groupId ∧ start ≤ e.createdAt ∧ e.createdAt < stop)

/-- The reduction `monthExpenses.reduce((sum, e) => sum + e.amount, 0)`. -/
def sumAmounts (l : List Expense) : Num :=
  l.foldl (fun sum e => Num.add sum e.amount) Num.zero

/-- The handler `addExpense`, run at time `now` for the signed-in user `user`.
A required field is missing when it is absent, an empty string, the number
zero or `NaN`; the budget check runs when the group exists and its
`budgetLimit` is present and truthy.
`monthStart now` and `monthEnd now` are the first instant of the calendar
month of `now` and of the following month, as the `Date` constructor of the
runtime computes them; `newId` is the identifier the store gives the new
document and `file` the name of the uploaded receipt. -/
def addExpense (monthStart monthEnd : Nat → Nat) (now newId : Nat) (user : UserId)
    (file : Option String) (st : Store) (req : AddExpenseRequest) : Response × Store :=
  match req.groupId, req.payer, req.amount, req.category, req.splitType with
  | some groupId, some payer, some amount, some category, some splitType =>
    if amount.truthy = false ∨ category = "" then
      (⟨400, .message "Missing required fields"⟩, st)
    else
      let group := st.findGroup groupId
      let budget : Bool × Num :=
        match group.bind Group.budgetLimit with
        | some budgetLimit =>
          if budgetLimit.truthy then
            let total := Num.add
              (sumAmounts (monthExpenses st groupId (monthStart now) (monthEnd now))) amount
            (Num.lt budgetLimit total, total)
          else (false, Num.zero)
        | none => (false, Num.zero)
      let expense : Expense :=
        { id := newId, group := groupId, payer := payer, amount := amount,
          category := category, description := req.description, splitType := splitType,
          splits := req.splits, receipt := file, createdBy := user, comments := [],
          locked := false, createdAt := now, updatedAt := now }
      (⟨201, .expenseAdded expense budget.1 budget.2 (group.bind Group.budgetLimit)⟩,
        { st with expenses := st.expenses ++ [expense] })
  | _, _, _, _, _ => (⟨400, .message "Missing required fields"⟩, st)

/-! ## `getExpenses` (lines 54-73) -/

/-- The filters of `req.query`; an absent or empty parameter is `none`. -/
structure ExpenseQuery where
  category : Option String
  minAmount : Option Num
  maxAmount : Option Num
  startDate : Option Nat
  endDate : Option Nat
  deriving DecidableEq, Repr

/-- The comparison `x <= y` of the store's query operators `$gte`, `$lte`. -/
def numLe (x y : Num) : Bool := Num.lt x y || (decide (x = y) && decide (x ≠ Num.nan))

/-- Whether an expense satisfies the `filter` object built from the query. -/
def matchesFilter (groupId : Nat) (q : ExpenseQuery) (e : Expense) : Bool :=
  e.group = groupId
    && (match q.category with
        | some c => c = "" || e.category = c
        | none => true)
    && (match q.minAmount with
        | some m => numLe m e.amount
        | none => true)
    && (match q.maxAmount with
        | some m => numLe e.amount m
        | none => true)
    && (match q.startDate with
        | some t => decide (t ≤ e.createdAt)
        | none => true)
    && (match q.endDate with
        | some t => decide (e.createdAt ≤ t)
        | none => true)

/-- The handler `getExpenses`, run at time `now`. -/
def getExpenses (now : Nat) (st : Store) (groupId : Nat) (q : ExpenseQuery) :
    Response × Store :=
  let expenses := st.expenses.filter (matchesFilter groupId q)
  let results := expenses.map (lockIfOld now)
  (⟨200, .expenses (results.map LockResult.expense)⟩, results.foldl Store.commit st)

/-! ## `addComment` (lines 75-97) -/

/-- The handler `addComment`, run at time `now` for the signed-in user `user`.
The `save()` of line 92 writes the new comment and sets `updatedAt`. -/
def addComment (now : Nat) (user : UserId) (st : Store) (expenseId : Nat)
    (text emoji : Option String) : Response × Store :=
  if !truthyStr text && !truthyStr emoji then
    (⟨400, .message "Comment text or emoji required"⟩, st)
  else
    match st.findExpense expenseId with
    | none => (⟨404, .message "Expense not found"⟩, st)
    | some found =>
      let r := lockIfOld now found
      let st1 := st.commit r
      if r.expense.locked then
        (⟨403, .message "Expense is locked and cannot be commented on"⟩, st1)
      else
        let expense := { r.expense with
          comments := r.expense.comments ++ [⟨user, text, emoji⟩], updatedAt := now }
        (⟨201, .expense expense⟩, st1.saveExpense expense)

/-! ## `getGroupBalances` (lines 99-120) and `optimizeDebts` (lines 122-158) -/

/-- The query `Expense.find({ group: groupId })`. -/
def groupExpenses (st : Store) (groupId : Nat) : List Expense :=
  st.expenses.filter (fun e => e.group = groupId)

/-- The handler `getGroupBalances`. It writes nothing to the store. -/
def getGroupBalances (st : Store) (groupId : Nat) : Response × Store :=
  (⟨200, .balances (computeBalances (groupExpenses st groupId))⟩, st)

/-- The handler `optimizeDebts`, its loop being given `fuel` iterations;
`none` means the loop did not finish within them. It writes nothing to the
store. -/
def optimizeDebts (fuel : Nat) (st : Store) (groupId : Nat) : Option (Response × Store) :=
  (greedySettle fuel (computeBalances (groupExpenses st groupId))).map
    (fun settlements => (⟨200, .settlements settlements⟩, st))

/-! ## `addSettlement` (lines 160-172) -/

/-- The fields of `req.body` read by `addSettlement`. -/
structure AddSettlementRequest where
  groupId : Option Nat
  fromUser : Option UserId
  toUser : Option UserId
  amount : Option Num
  note : Option String
  deriving DecidableEq, Repr

/-- The handler `addSettlement`. -/
def addSettlement (st : Store) (req : AddSettlementRequest) : Response × Store :=
  match req.groupId, req.fromUser, req.toUser, req.amount with
  | some groupId, some fromUser, some toUser, some amount =>
    if amount.truthy = false then (⟨400, .message "Missing required fields"⟩, st)
    else
      let settlement : Settlement := ⟨groupId, fromUser, toUser, amount, req.note⟩
      (⟨201, .settlement settlement⟩, { st with settlements := st.settlements ++ [settlement] })
  | _, _, _, _ => (⟨400, .message "Missing required fields"⟩, st)

/-! ## The same computations in exact integer arithmetic -/

namespace Exact

/-- A mapping from members to exact integer balances, in insertion order. -/
abbrev Balances := List (UserId × Int)

namespace Balances

/-- The balance of `u`, 0 when `u` is not a key. -/
def get (b : Balances) (u : UserId) : Int :=
  match b with
  | [] => 0
  | (k, v) :: rest => if k = u then v else get rest u

/-- Add `x` to the balance of `u`: an existing key keeps its position, a new
key is added last. -/
def add (b : Balances) (u : UserId) (x : Int) : Balances :=
  match b with
  | [] => [(u, 0 + x)]
  | (k, v) :: rest => if k = u then (k, v + x) :: rest else (k, v) :: add rest u x

/-- The exact sum of all balances of the mapping. -/
def total (b : Balances) : Int := (b.map Prod.snd).sum

/-- The members (keys) of the mapping. -/
def users (b : Balances) : List UserId := b.map Prod.fst

/-- The sum of the magnitudes of all balances of the mapping. -/
def mass (b : Balances) : Nat := (b.map (fun p => p.2.natAbs)).sum

end Balances

/-- Debit the integer value of every split from its user. -/
def debitSplits (b : Balances) (splits : List Split) : Balances :=
  splits.foldl (fun acc split => acc.add split.user (-split.amount.toInt)) b

/-- Credit the integer value of the amount to the payer, debit the splits. -/
def applyExpense (b : Balances) (exp : Expense) : Balances :=
  debitSplits (b.add exp.payer exp.amount.toInt) exp.splits

/-- The exact balances of a list of expenses with integer amounts. -/
def computeBalances (expenses : List Expense) : Balances :=
  expenses.foldl applyExpense []

/-- A creditor or debtor with an exact integer amount. -/
structure Party where
  user : UserId
  amount : Int
  deriving DecidableEq, Repr

/-- A settlement instruction with an exact integer amount. -/
structure Instruction where
  fromUser : UserId
  toUser : UserId
  amount : Int
  deriving DecidableEq, Repr

/-- Members with a positive balance, in key order. -/
def creditorsOf (b : Balances) : List Party :=
  match b with
  | [] => []
  | (u, a) :: rest =>
    if a > 0 then ⟨u, a⟩ :: creditorsOf rest else creditorsOf rest

/-- Members with a negative balance, stored with the positive owed amount,
in key order. -/
def debtorsOf (b : Balances) : List Party :=
  match b with
  | [] => []
  | (u, a) :: rest =>
    if a > 0 then debtorsOf rest
    else if a < 0 then ⟨u, -a⟩ :: debtorsOf rest else debtorsOf rest

/-- The variables of the loop, with exact amounts. -/
structure LoopState where
  debtors : List Party
  creditors : List Party
  i : Nat
  j : Nat
  settlements : List Instruction
  deriving DecidableEq, Repr

/-- One iteration of the greedy loop in exact arithmetic. -/
def loopStep (s : LoopState) : Option LoopState :=
  if h : s.i < s.debtors.length ∧ s.j < s.creditors.length then
    let d := s.debtors.get ⟨s.i, h.1⟩
    let c := s.creditors.get ⟨s.j, h.2⟩
    let pay := min d.amount c.amount
    let settlements := s.settlements ++ [⟨d.user, c.user, pay⟩]
    let debtors := s.debtors.set s.i { d with amount := d.amount - pay }
    let creditors := s.creditors.set s.j { c with amount := c.amount - pay }
    let i := if d.amount - pay = 0 then s.i + 1 else s.i
    let j := if c.amount - pay = 0 then s.j + 1 else s.j
    some ⟨debtors, creditors, i, j, settlements⟩
  else none

/-- The greedy loop in exact arithmetic, run for at most `fuel` iterations. -/
def whileLoop (fuel : Nat) (s : LoopState) : Option LoopState :=
  match loopStep s with
  | none => some s
  | some s' =>
    match fuel with
    | 0 => none
    | n + 1 => whileLoop n s'

/-- The initial loop state for an exact balance mapping. -/
def initState (b : Balances) : LoopState :=
  ⟨debtorsOf b, creditorsOf b, 0, 0, []⟩

/-- Apply one instruction: add `amount` to the balance of `from`, subtract it
from the balance of `to`. -/
def applyInstruction (b : Balances) (t : Instruction) : Balances :=
  (b.add t.fromUser t.amount).add t.toUser (-t.amount)

/-- Apply every instruction of a plan, in order. -/
def applyPlan (b : Balances) (plan : List Instruction) : Balances :=
  plan.foldl applyInstruction b

/-- The total amount the plan makes `u` pay. -/
def paidBy (u : UserId) (plan : List Instruction) : Int :=
  ((plan.filter (fun t => t.fromUser = u)).map Instruction.amount).sum

/-- The total amount the plan makes `u` receive. -/
def receivedBy (u : UserId) (plan : List Instruction) : Int :=
  ((plan.filter (fun t => t.toUser = u)).map Instruction.amount).sum

/-- The parties left after paying `pay` out of the head party `d`. -/
def afterPay (d : Party) (pay : Int) (rest : List Party) : List Party :=
  if d.amount - pay = 0 then rest else ⟨d.user, d.amount - pay⟩ :: rest

/-- The sum of the outstanding amounts of a list of parties. -/
def sumOutstanding (l : List Party) : Int := (l.map Party.amount).sum

/-- The total outstanding amount recorded for user `u` in a list of parties. -/
def owed (u : UserId) (l : List Party) : Int :=
  ((l.filter (fun p => p.user = u)).map Party.amount).sum

/-- Every party of the list has a strictly positive outstanding amount. -/
def AllPositive (l : List Party) : Prop := ∀ p ∈ l, 0 < p.amount

/-- Every party of the list has an outstanding amount below `2^53`. -/
def AllSafe (l : List Party) : Prop := ∀ p ∈ l, p.amount < 2 ^ 53

end Exact

/-! ## From exact integers to JavaScript numbers -/

/-- The mapping of JavaScript numbers that holds the integers of `n`. -/
def Balances.ofInts (n : Exact.Balances) : Balances :=
  n.map (fun p => (p.1, Num.ofInt p.2))

/-- The party whose amount is the JavaScript number holding the integer. -/
def Party.ofExact (p : Exact.Party) : Party := ⟨p.user, Num.ofInt p.amount⟩

/-- The instruction whose amount is the JavaScript number holding the
integer. -/
def Instruction.ofExact (t : Exact.Instruction) : Instruction :=
  ⟨t.fromUser, t.toUser, Num.ofInt t.amount⟩

/-- The sum of the magnitudes of the integer parts of the split amounts. -/
def splitVolume (splits : List Split) : Nat :=
  (splits.map (fun s => s.amount.toInt.natAbs)).sum

/-- The sum of the magnitudes of the integer parts of all amounts and split
amounts of a list of expenses. -/
def volume (expenses : List Expense) : Nat :=
  (expenses.map (fun e => e.amount.toInt.natAbs + splitVolume e.splits)).sum

/-! ## Auxiliary notions used in the statements and proofs -/

/-- The parties left after paying `pay` out of the head party `d`. -/
def afterPay (d : Party) (pay : Num) (rest : List Party) : List Party :=
  if (Num.sub d.amount pay).isZero then rest else ⟨d.user, Num.sub d.amount pay⟩ :: rest

/-- The number is finite, strictly positive and within the binary64 range. -/
def Num.PosFinite (x : Num) : Prop := ∃ k : Int, x = Num.fin k ∧ 0 < k ∧ k.natAbs ≤ maxFinite

/-- Every party of the list has a finite, strictly positive amount. -/
def AllPosFinite (l : List Party) : Prop := ∀ p ∈ l, p.amount.PosFinite

/-! ## Scenario data -/

/-- The expense of 90.00 paid by Alice (user 1) and split 30.00 each among
Alice, Bob (user 2) and Carol (user 3), in group 7, in minor units. -/
def dinner : Expense :=
  { id := 100, group := 7, payer := 1, amount := Num.ofInt 9000, category := "food",
    description := none, splitType := SplitType.equal,
    splits := [⟨1, Num.ofInt 3000⟩, ⟨2, Num.ofInt 3000⟩, ⟨3, Num.ofInt 3000⟩],
    receipt := none, createdBy := 1, comments := [], locked := false,
    createdAt := 1000, updatedAt := 1000 }

/-- A second expense of group 7, in another category, created at the same
time as the dinner. -/
def taxi : Expense :=
  { dinner with
    id := 101, amount := Num.ofInt 1200, category := "travel",
    splits := [⟨2, Num.ofInt 1200⟩] }

/-- A store holding group 7 and the dinner expense. -/
def dinnerStore : Store :=
  { expenses := [dinner], groups := [⟨7, none⟩], settlements := [] }

/-- A store holding group 7 with the dinner and the taxi expense. -/
def tripStore : Store :=
  { expenses := [dinner, taxi], groups := [⟨7, none⟩], settlements := [] }

/-- A query that selects the expenses of category `food` only. -/
def foodOnly : ExpenseQuery :=
  { category := some "food", minAmount := none, maxAmount := none, startDate := none,
    endDate := none }

/-- A store for the budget scenario: group 7 with a limit of 100.00 and one
expense of 90.00 recorded this month. -/
def budgetStore : Store :=
  { expenses := [dinner], groups := [⟨7, some (Num.ofInt 10000)⟩], settlements := [] }

/-- A store whose group 7 has the limit `2^53` and one expense of `2^53`
recorded this month. -/
def largeBudgetStore : Store :=
  { expenses := [{ dinner with amount := Num.ofInt (2 ^ 53),
                               splits := [⟨2, Num.ofInt (2 ^ 53)⟩] }],
    groups := [⟨7, some (Num.ofInt (2 ^ 53))⟩], settlements := [] }

/-- First instant of the month used in the scenarios (January 1970). -/
def januaryStart : Nat → Nat := fun _ => 0

/-- First instant of the following month (February 1970), in milliseconds. -/
def januaryEnd : Nat → Nat := fun _ => 2678400000

/-- The request recording that Bob (user 2) paid Alice (user 1) 30.00 in
group 7. -/
def bobPaysAlice : AddSettlementRequest :=
  ⟨some 7, some 2, some 1, some (Num.ofInt 3000), none⟩

/-- A store whose only expense of group 7 has splits that do not add up to
its amount: 90.00 paid by user 1, of which only 30.00 is split to user 2. -/
def unbalancedStore : Store :=
  { expenses := [{ dinner with splits := [⟨2, Num.ofInt 3000⟩] }], groups := [⟨7, none⟩],
    settlements := [] }

/-- A store whose group 7 has two expenses, `2^53` paid by user 1 for user 2
and `1` paid by user 1 for user 3; each has splits adding up to its amount. -/
def largeStore : Store :=
  { expenses :=
      [{ dinner with amount := Num.ofInt (2 ^ 53), splits := [⟨2, Num.ofInt (2 ^ 53)⟩] },
       { dinner with id := 101, amount := Num.ofInt 1, splits := [⟨3, Num.ofInt 1⟩] }],
    groups := [⟨7, none⟩], settlements := [] }

/-- A store whose group 7 has two expenses of `Number.MAX_VALUE`, both paid
by user 1 for user 2. -/
def overflowStore : Store :=
  { expenses :=
      [{ dinner with amount := Num.fin maxFinite, splits := [⟨2, Num.fin maxFinite⟩] },
       { dinner with id := 101, amount := Num.fin maxFinite,
                     splits := [⟨2, Num.fin maxFinite⟩] }],
    groups := [⟨7, none⟩], settlements := [] }

/-- A zero-sum mapping of integers, each a binary64 value: users 2 and 3 owe
1 each, user 4 owes `2^53`, user 1 is owed `2^53 + 2`. -/
def wideBalances : Exact.Balances :=
  [(2, -1), (3, -1), (1, 2 ^ 53 + 2), (4, -(2 ^ 53))]

/-- The binary64 value nearest to 0.1, `3602879701896397 * 2^-55`. -/
def tenth : Num := Num.fin ((3602879701896397 <<< 1019 : Nat) : Int)

/-- The binary64 value nearest to 0.2, `3602879701896397 * 2^-54`. -/
def fifth : Num := Num.fin ((3602879701896397 <<< 1020 : Nat) : Int)

/-- The binary64 value nearest to 0.3, `5404319552844595 * 2^-54`. -/
def threeTenths : Num := Num.fin ((5404319552844595 <<< 1020 : Nat) : Int)

/-- A store whose group 7 has the limit 0.3 and one expense of 0.1 recorded
this month, in major units. -/
def decimalBudgetStore : Store :=
  { expenses := [{ dinner with amount := tenth, splits := [⟨2, tenth⟩] }],
    groups := [⟨7, some threeTenths⟩], settlements := [] }

/-- The number is a value binary64 can hold: finite and unchanged by
rounding, or infinite, or `NaN`. -/
def Num.isDouble : Num → Bool
  | Num.fin k => decide (roundNat k.natAbs = k.natAbs ∧ k.natAbs ≤ maxFinite)
  | _ => true

/-- Apply one instruction to a mapping of JavaScript numbers: add `amount` to
the balance of `from`, then subtract it from the balance of `to`. -/
def applyInstruction (b : Balances) (t : Instruction) : Balances :=
  (b.map (fun p => if p.1 = t.fromUser then (p.1, Num.add p.2 t.amount) else p)).map
    (fun p => if p.1 = t.toUser then (p.1, Num.sub p.2 t.amount) else p)

/-- Apply every instruction of a plan, in order. -/
def applyPlan (b : Balances) (plan : List Instruction) : Balances :=
  plan.foldl applyInstruction b

/-! ## Lemmas on lists -/

theorem drop_cons_inv {α : Type} (l : List α) (n : Nat) (x : α) (xs : List α)
    (h : l.drop n = x :: xs) :
    ∃ hn : n < l.length, l.get ⟨n, hn⟩ = x ∧ l.drop (n + 1) = xs := by
  have hn : n < l.length := by
    by_contra hcon
    rw [List.drop_eq_nil_of_le (Nat.le_of_not_lt hcon)] at h
    cases h
  refine ⟨hn, ?_⟩
  rw [List.drop_eq_getElem_cons hn] at h
  injection h with h1 h2
  exact ⟨h1, h2⟩

/-! ## The computations in exact integer arithmetic -/

namespace Exact

theorem Balances.total_add_exact (b : Balances) (u : UserId) (x : Int) :
    (b.add u x).total = b.total + x := by
  induction b with
  | nil => simp [Balances.add, Balances.total]
  | cons p rest ih =>
    obtain ⟨k, v⟩ := p
    by_cases hk : k = u
    · simp [Balances.add, Balances.total, hk]; ring
    · simp only [Balances.total] at ih
      simp [Balances.add, Balances.total, hk, ih]; ring

theorem Balances.get_add_exact (b : Balances) (u w : UserId) (x : Int) :
    (b.add u x).get w = if w = u then b.get w + x else b.get w := by
  induction b with
  | nil =>
    by_cases hw : w = u
    · simp [Balances.add, Balances.get, hw]
    · have hw2 : ¬ u = w := fun h => hw h.symm
      simp [Balances.add, Balances.get, hw, hw2]
  | cons p rest ih =>
    obtain ⟨k, v⟩ := p
    by_cases hk : k = u
    · by_cases hw : w = u
      · simp [Balances.add, Balances.get, hk, hw]
      · have hw2 : ¬ u = w := fun h => hw h.symm
        simp [Balances.add, Balances.get, hk, hw, hw2]
    · by_cases hkw : k = w
      · have hw : ¬ w = u := fun h => hk (hkw.trans h)
        simp [Balances.add, Balances.get, hk, hkw, hw]
      · simp [Balances.add, Balances.get, hk, hkw, ih]

theorem total_debitSplits_exact (splits : List Split) (b : Balances) :
    (debitSplits b splits).total = b.total - (splits.map (fun s => s.amount.toInt)).sum := by
  induction splits generalizing b with
  | nil => simp [debitSplits]
  | cons sp rest ih =>
    have h := ih (b.add sp.user (-sp.amount.toInt))
    simp only [debitSplits, List.foldl_cons] at h ⊢
    rw [h, Balances.total_add_exact]
    simp only [List.map_cons, List.sum_cons]
    ring

theorem total_applyExpense_exact (b : Balances) (e : Expense) :
    (applyExpense b e).total = b.total + e.amount.toInt - (e.splits.map (fun s => s.amount.toInt)).sum := by
  simp [applyExpense, total_debitSplits_exact, Balances.total_add_exact]

theorem total_foldl_applyExpense_exact (expenses : List Expense) (b : Balances)
    (h : ∀ e ∈ expenses, (e.splits.map (fun s => s.amount.toInt)).sum = e.amount.toInt) :
    (expenses.foldl applyExpense b).total = b.total := by
  induction expenses generalizing b with
  | nil => rfl
  | cons e rest ih =>
    simp only [List.foldl_cons]
    rw [ih _ (fun x hx => h x (List.mem_cons_of_mem _ hx)), total_applyExpense_exact,
      h e (List.mem_cons_self _ _)]
    ring

theorem drop_set_afterPay_exact (l : List Party) (n : Nat) (d : Party) (ds : List Party)
    (pay : Int) (h : l.drop n = d :: ds) :
    (l.set n { d with amount := d.amount - pay }).drop
        (if d.amount - pay = 0 then n + 1 else n) = afterPay d pay ds := by
  obtain ⟨hn, _, h2⟩ := drop_cons_inv l n d ds h
  unfold afterPay
  split
  · rw [List.drop_set_of_lt _ _ (Nat.lt_succ_self n), h2]
  · rw [List.drop_set, if_neg (Nat.lt_irrefl n), h]
    simp

theorem loopStep_cons_exact (s : LoopState) (d c : Party) (ds cs : List Party)
    (hd : s.debtors.drop s.i = d :: ds) (hc : s.creditors.drop s.j = c :: cs) :
    ∃ s', loopStep s = some s' ∧
      s'.settlements = s.settlements ++ [⟨d.user, c.user, min d.amount c.amount⟩] ∧
      s'.debtors.drop s'.i = afterPay d (min d.amount c.amount) ds ∧
      s'.creditors.drop s'.j = afterPay c (min d.amount c.amount) cs := by
  obtain ⟨hi, hdi, _⟩ := drop_cons_inv _ _ _ _ hd
  obtain ⟨hj, hcj, _⟩ := drop_cons_inv _ _ _ _ hc
  refine ⟨_, by rw [loopStep, dif_pos ⟨hi, hj⟩], ?_, ?_, ?_⟩
  · simp only [hdi, hcj]
  · simp only [hdi, hcj]
    exact drop_set_afterPay_exact _ _ _ _ _ hd
  · simp only [hdi, hcj]
    exact drop_set_afterPay_exact _ _ _ _ _ hc

theorem loopStep_nil_exact (s : LoopState)
    (h : s.debtors.drop s.i = [] ∨ s.creditors.drop s.j = []) : loopStep s = none := by
  rw [loopStep, dif_neg]
  rintro ⟨hi, hj⟩
  rcases h with h | h
  · rw [List.drop_eq_nil_iff] at h; omega
  · rw [List.drop_eq_nil_iff] at h; omega

theorem afterPay_length_le_exact (d : Party) (pay : Int) (rest : List Party) :
    (afterPay d pay rest).length ≤ rest.length + 1 := by
  unfold afterPay; split <;> simp

theorem afterPay_length_eq_exact (d : Party) (rest : List Party) :
    (afterPay d d.amount rest).length = rest.length := by
  simp [afterPay]

theorem afterPay_sum_exact (d : Party) (pay : Int) (rest : List Party) :
    sumOutstanding (afterPay d pay rest) = sumOutstanding (d :: rest) - pay := by
  unfold afterPay sumOutstanding
  split
  · simp only [List.map_cons, List.sum_cons]; omega
  · simp only [List.map_cons, List.sum_cons]; omega

theorem afterPay_owed_exact (u : UserId) (d : Party) (pay : Int) (rest : List Party) :
    owed u (afterPay d pay rest) + (if d.user = u then pay else 0) = owed u (d :: rest) := by
  unfold afterPay owed
  by_cases hu : d.user = u
  · split
    · simp only [List.filter_cons, hu, decide_True, if_true, List.map_cons, List.sum_cons]; omega
    · simp only [List.filter_cons, hu, decide_True, if_true, List.map_cons, List.sum_cons]; omega
  · split
    · simp [List.filter_cons, hu]
    · simp [List.filter_cons, hu]

theorem afterPay_positive_exact (d : Party) (pay : Int) (rest : List Party)
    (hpay : pay ≤ d.amount) (h : AllPositive (d :: rest)) :
    AllPositive (afterPay d pay rest) := by
  unfold afterPay
  split
  · exact fun p hp => h p (List.mem_cons_of_mem _ hp)
  · intro p hp
    rcases List.mem_cons.1 hp with hp | hp
    · subst hp
      show 0 < d.amount - pay
      omega
    · exact h p (List.mem_cons_of_mem _ hp)

theorem sumOutstanding_pos_exact (l : List Party) (h : AllPositive l) (hne : l ≠ []) :
    0 < sumOutstanding l := by
  induction l with
  | nil => exact absurd rfl hne
  | cons p rest ih =>
    have hp : 0 < p.amount := h p (List.mem_cons_self _ _)
    have hrest : AllPositive rest := fun q hq => h q (List.mem_cons_of_mem _ hq)
    by_cases hr : rest = []
    · subst hr; simpa [sumOutstanding] using hp
    · have := ih hrest hr
      simp only [sumOutstanding, List.map_cons, List.sum_cons] at this ⊢
      omega

theorem whileLoop_of_none_exact (fuel : Nat) (s : LoopState) (h : loopStep s = none) :
    whileLoop fuel s = some s := by
  cases fuel <;> simp [whileLoop, h]

theorem whileLoop_of_some_exact (fuel : Nat) (s s' : LoopState) (h : loopStep s = some s') :
    whileLoop (fuel + 1) s = whileLoop fuel s' := by
  rw [whileLoop, h]

theorem paidBy_append_singleton_exact (u : UserId) (plan : List Instruction) (t : Instruction) :
    paidBy u (plan ++ [t]) = paidBy u plan + (if t.fromUser = u then t.amount else 0) := by
  unfold paidBy
  by_cases h : t.fromUser = u <;> simp [List.filter_append, List.filter_cons, h]

theorem receivedBy_append_singleton_exact (u : UserId) (plan : List Instruction) (t : Instruction) :
    receivedBy u (plan ++ [t]) = receivedBy u plan + (if t.toUser = u then t.amount else 0) := by
  unfold receivedBy
  by_cases h : t.toUser = u <;> simp [List.filter_append, List.filter_cons, h]

/-- The run of the loop from a state whose outstanding debts and credits are
strictly positive and have equal sums: it stops, every remaining debtor has
paid what was outstanding, every remaining creditor has received what was
outstanding, and it took fewer iterations than there were parties left. -/
theorem whileLoop_balanced_exact (fuel : Nat) (s : LoopState)
    (hD : AllPositive (s.debtors.drop s.i)) (hC : AllPositive (s.creditors.drop s.j))
    (hsum : sumOutstanding (s.debtors.drop s.i) = sumOutstanding (s.creditors.drop s.j))
    (h : (s.debtors.drop s.i).length + (s.creditors.drop s.j).length ≤ fuel) :
    ∃ s', whileLoop fuel s = some s' ∧
      (∀ u, paidBy u s'.settlements = paidBy u s.settlements + owed u (s.debtors.drop s.i)) ∧
      (∀ u, receivedBy u s'.settlements
        = receivedBy u s.settlements + owed u (s.creditors.drop s.j)) ∧
      (s.debtors.drop s.i = [] → s'.settlements = s.settlements) ∧
      (s.debtors.drop s.i ≠ [] → s'.settlements.length + 1 ≤ s.settlements.length
        + ((s.debtors.drop s.i).length + (s.creditors.drop s.j).length)) := by
  induction fuel generalizing s with
  | zero =>
    have h1 : s.debtors.drop s.i = [] := List.length_eq_zero.1 (by omega)
    have h2 : s.creditors.drop s.j = [] := List.length_eq_zero.1 (by omega)
    have hn := loopStep_nil_exact s (Or.inl h1)
    refine ⟨s, whileLoop_of_none_exact _ _ hn, ?_, ?_, fun _ => rfl, fun hne => absurd h1 hne⟩
    · intro u; simp [h1, owed]
    · intro u; simp [h2, owed]
  | succ n ih =>
    rcases hDd : s.debtors.drop s.i with _ | ⟨d, ds⟩
    · have hCc : s.creditors.drop s.j = [] := by
        by_contra hne
        have := sumOutstanding_pos_exact _ hC hne
        rw [← hsum, hDd] at this
        simp [sumOutstanding] at this
      have hn := loopStep_nil_exact s (Or.inl hDd)
      refine ⟨s, whileLoop_of_none_exact _ _ hn, ?_, ?_, fun _ => rfl, fun hne => absurd rfl hne⟩
      · intro u; simp [owed]
      · intro u; simp [hCc, owed]
    · rcases hCc : s.creditors.drop s.j with _ | ⟨c, cs⟩
      · exfalso
        have := sumOutstanding_pos_exact _ hD (by rw [hDd]; simp)
        rw [hsum, hCc] at this
        simp [sumOutstanding] at this
      · obtain ⟨s1, hstep, hset, hd1, hc1⟩ := loopStep_cons_exact s d c ds cs hDd hCc
        rw [hDd] at hD hsum h
        rw [hCc] at hC hsum h
        simp only [List.length_cons] at h
        have hD1 : AllPositive (s1.debtors.drop s1.i) := by
          rw [hd1]; exact afterPay_positive_exact d _ ds (min_le_left _ _) hD
        have hC1 : AllPositive (s1.creditors.drop s1.j) := by
          rw [hc1]; exact afterPay_positive_exact c _ cs (min_le_right _ _) hC
        have hsum1 : sumOutstanding (s1.debtors.drop s1.i)
            = sumOutstanding (s1.creditors.drop s1.j) := by
          rw [hd1, hc1, afterPay_sum_exact, afterPay_sum_exact, hsum]
        have hlen : (s1.debtors.drop s1.i).length + (s1.creditors.drop s1.j).length
            ≤ ds.length + cs.length + 1 := by
          rw [hd1, hc1]
          rcases le_total d.amount c.amount with hle | hle
          · rw [min_eq_left hle, afterPay_length_eq_exact]
            have := afterPay_length_le_exact c d.amount cs
            omega
          · rw [min_eq_right hle, afterPay_length_eq_exact]
            have := afterPay_length_le_exact d c.amount ds
            omega
        obtain ⟨s2, hrun, hpaid, hrecv, hstay, hcount⟩ := ih s1 hD1 hC1 hsum1 (by omega)
        refine ⟨s2, by rw [whileLoop_of_some_exact _ _ _ hstep]; exact hrun, ?_, ?_, ?_, ?_⟩
        · intro u
          rw [hpaid u, hset, paidBy_append_singleton_exact, hd1]
          have := afterPay_owed_exact u d (min d.amount c.amount) ds
          simp only at this ⊢
          omega
        · intro u
          rw [hrecv u, hset, receivedBy_append_singleton_exact, hc1]
          have := afterPay_owed_exact u c (min d.amount c.amount) cs
          simp only at this ⊢
          omega
        · intro hcon; cases hcon
        · intro _
          simp only [List.length_cons]
          by_cases hnil : s1.debtors.drop s1.i = []
          · rw [hstay hnil, hset]
            simp only [List.length_append, List.length_singleton]
            omega
          · have := hcount hnil
            rw [hset] at this
            simp only [List.length_append, List.length_singleton] at this
            omega

theorem creditorsOf_positive_exact (b : Balances) : AllPositive (creditorsOf b) := by
  induction b with
  | nil => intro p hp; simp [creditorsOf] at hp
  | cons q rest ih =>
    obtain ⟨k, v⟩ := q
    by_cases hv : v > 0
    · intro p hp
      simp only [creditorsOf, hv, if_true, List.mem_cons] at hp
      rcases hp with hp | hp
      · subst hp; exact hv
      · exact ih p hp
    · simpa [creditorsOf, hv] using ih

theorem debtorsOf_positive_exact (b : Balances) : AllPositive (debtorsOf b) := by
  induction b with
  | nil => intro p hp; simp [debtorsOf] at hp
  | cons q rest ih =>
    obtain ⟨k, v⟩ := q
    by_cases hv : v > 0
    · simpa [debtorsOf, hv] using ih
    · by_cases hv2 : v < 0
      · intro p hp
        simp only [debtorsOf, hv, if_false, hv2, if_true, List.mem_cons] at hp
        rcases hp with hp | hp
        · subst hp; show 0 < -v; omega
        · exact ih p hp
      · simpa [debtorsOf, hv, hv2] using ih

theorem sum_creditors_sub_debtors_exact (b : Balances) :
    sumOutstanding (creditorsOf b) - sumOutstanding (debtorsOf b) = b.total := by
  induction b with
  | nil => simp [creditorsOf, debtorsOf, sumOutstanding, Balances.total]
  | cons q rest ih =>
    obtain ⟨k, v⟩ := q
    simp only [sumOutstanding, Balances.total] at ih
    by_cases hv : v > 0
    · simp only [creditorsOf, debtorsOf, hv, if_true, sumOutstanding, Balances.total,
        List.map_cons, List.sum_cons]
      omega
    · by_cases hv2 : v < 0
      · simp only [creditorsOf, debtorsOf, hv, if_false, hv2, if_true, sumOutstanding,
          Balances.total, List.map_cons, List.sum_cons]
        omega
      · simp only [creditorsOf, debtorsOf, hv, if_false, hv2, sumOutstanding,
          Balances.total, List.map_cons, List.sum_cons]
        omega

theorem owed_creditorsOf_of_not_mem_exact (u : UserId) (b : Balances) (h : u ∉ b.users) :
    owed u (creditorsOf b) = 0 := by
  induction b with
  | nil => simp [creditorsOf, owed]
  | cons q rest ih =>
    obtain ⟨k, v⟩ := q
    simp only [Balances.users, List.map_cons, List.mem_cons, not_or] at h
    have hk : ¬ k = u := fun e => h.1 e.symm
    have hr := ih h.2
    simp only [owed] at hr
    by_cases hv : v > 0
    · simp [creditorsOf, hv, owed, List.filter_cons, hk, hr]
    · simp [creditorsOf, hv, owed, hr]

theorem owed_debtorsOf_of_not_mem_exact (u : UserId) (b : Balances) (h : u ∉ b.users) :
    owed u (debtorsOf b) = 0 := by
  induction b with
  | nil => simp [debtorsOf, owed]
  | cons q rest ih =>
    obtain ⟨k, v⟩ := q
    simp only [Balances.users, List.map_cons, List.mem_cons, not_or] at h
    have hk : ¬ k = u := fun e => h.1 e.symm
    have hr := ih h.2
    simp only [owed] at hr
    by_cases hv : v > 0
    · simp [debtorsOf, hv, owed, hr]
    · by_cases hv2 : v < 0
      · simp [debtorsOf, hv, hv2, owed, List.filter_cons, hk, hr]
      · simp [debtorsOf, hv, hv2, owed, hr]

theorem owed_creditorsOf_exact (u : UserId) (b : Balances) (h : b.users.Nodup) :
    owed u (creditorsOf b) = if 0 < b.get u then b.get u else 0 := by
  induction b with
  | nil => simp [creditorsOf, owed, Balances.get]
  | cons q rest ih =>
    obtain ⟨k, v⟩ := q
    simp only [Balances.users, List.map_cons, List.nodup_cons] at h
    by_cases hk : k = u
    · subst hk
      have h0 := owed_creditorsOf_of_not_mem_exact k rest h.1
      simp only [owed] at h0
      by_cases hv : v > 0
      · simp [creditorsOf, hv, owed, List.filter_cons, Balances.get, h0]
      · simp [creditorsOf, hv, owed, Balances.get, h0]
    · have hr := ih h.2
      simp only [owed] at hr
      by_cases hv : v > 0
      · simp [creditorsOf, hv, owed, List.filter_cons, Balances.get, hk, hr]
      · simp [creditorsOf, hv, owed, Balances.get, hk, hr]

theorem owed_debtorsOf_exact (u : UserId) (b : Balances) (h : b.users.Nodup) :
    owed u (debtorsOf b) = if b.get u < 0 then -b.get u else 0 := by
  induction b with
  | nil => simp [debtorsOf, owed, Balances.get]
  | cons q rest ih =>
    obtain ⟨k, v⟩ := q
    simp only [Balances.users, List.map_cons, List.nodup_cons] at h
    by_cases hk : k = u
    · subst hk
      have h0 := owed_debtorsOf_of_not_mem_exact k rest h.1
      simp only [owed] at h0
      by_cases hv : v > 0
      · have hv2 : ¬ v < 0 := by omega
        simp [debtorsOf, hv, owed, Balances.get, h0, hv2]
      · by_cases hv2 : v < 0
        · simp [debtorsOf, hv, hv2, owed, List.filter_cons, Balances.get, h0]
        · simp [debtorsOf, hv, hv2, owed, Balances.get, h0]
    · have hr := ih h.2
      simp only [owed] at hr
      by_cases hv : v > 0
      · simp [debtorsOf, hv, owed, Balances.get, hk, hr]
      · by_cases hv2 : v < 0
        · simp [debtorsOf, hv, hv2, owed, List.filter_cons, Balances.get, hk, hr]
        · simp [debtorsOf, hv, hv2, owed, Balances.get, hk, hr]

theorem Balances.get_of_mem_exact (b : Balances) (h : b.users.Nodup) (k : UserId) (v : Int)
    (hm : (k, v) ∈ b) : b.get k = v := by
  induction b with
  | nil => cases hm
  | cons q rest ih =>
    obtain ⟨k', v'⟩ := q
    simp only [Balances.users, List.map_cons, List.nodup_cons] at h
    rcases List.mem_cons.1 hm with hm | hm
    · cases hm; simp [Balances.get]
    · have hne : ¬ k' = k := by
        intro e
        subst e
        exact h.1 (List.mem_map.2 ⟨(k', v), hm, rfl⟩)
      simp only [Balances.get, hne, if_false]
      exact ih h.2 hm

theorem Balances.users_add_exact (b : Balances) (u : UserId) (x : Int) :
    (b.add u x).users = if u ∈ b.users then b.users else b.users ++ [u] := by
  induction b with
  | nil => simp [Balances.add, Balances.users]
  | cons q rest ih =>
    obtain ⟨k, v⟩ := q
    simp only [Balances.users] at ih
    by_cases hk : k = u
    · simp [Balances.add, Balances.users, hk]
    · have hk2 : ¬ u = k := fun e => hk e.symm
      simp only [Balances.add, hk, if_false, Balances.users, List.map_cons, ih,
        List.mem_cons, hk2, false_or]
      split <;> simp

theorem Balances.nodup_add_exact (b : Balances) (u : UserId) (x : Int) (h : b.users.Nodup) :
    (b.add u x).users.Nodup := by
  rw [Balances.users_add_exact]
  split
  · exact h
  · rename_i hu
    rw [List.nodup_append]
    refine ⟨h, List.nodup_singleton u, ?_⟩
    intro a ha hb
    rw [List.mem_singleton] at hb
    subst hb
    exact hu ha

theorem nodup_applyPlan_exact (plan : List Instruction) (b : Balances) (h : b.users.Nodup) :
    (applyPlan b plan).users.Nodup := by
  induction plan generalizing b with
  | nil => exact h
  | cons t rest ih =>
    exact ih _ (Balances.nodup_add_exact _ _ _ (Balances.nodup_add_exact _ _ _ h))

theorem paidBy_cons_exact (u : UserId) (t : Instruction) (plan : List Instruction) :
    paidBy u (t :: plan) = (if u = t.fromUser then t.amount else 0) + paidBy u plan := by
  unfold paidBy
  by_cases h : u = t.fromUser
  · simp [List.filter_cons, h]
  · have h2 : ¬ t.fromUser = u := fun e => h e.symm
    simp [List.filter_cons, h, h2]

theorem receivedBy_cons_exact (u : UserId) (t : Instruction) (plan : List Instruction) :
    receivedBy u (t :: plan) = (if u = t.toUser then t.amount else 0) + receivedBy u plan := by
  unfold receivedBy
  by_cases h : u = t.toUser
  · simp [List.filter_cons, h]
  · have h2 : ¬ t.toUser = u := fun e => h e.symm
    simp [List.filter_cons, h, h2]

theorem get_applyPlan_exact (plan : List Instruction) (b : Balances) (u : UserId) :
    (applyPlan b plan).get u = b.get u + paidBy u plan - receivedBy u plan := by
  induction plan generalizing b with
  | nil => simp [applyPlan, paidBy, receivedBy]
  | cons t rest ih =>
    have h := ih (applyInstruction b t)
    simp only [applyPlan, List.foldl_cons] at h ⊢
    rw [h, paidBy_cons_exact, receivedBy_cons_exact]
    simp only [applyInstruction, Balances.get_add_exact]
    split_ifs <;> omega

theorem total_applyPlan_exact (plan : List Instruction) (b : Balances) :
    (applyPlan b plan).total = b.total := by
  induction plan generalizing b with
  | nil => rfl
  | cons t rest ih =>
    have h := ih (applyInstruction b t)
    simp only [applyPlan, List.foldl_cons] at h ⊢
    rw [h]
    simp only [applyInstruction, Balances.total_add_exact]
    omega

theorem total_eq_zero_of_all_zero_exact (b : Balances) (h : ∀ p ∈ b, p.2 = 0) : b.total = 0 := by
  induction b with
  | nil => rfl
  | cons q rest ih =>
    have hq := h q (List.mem_cons_self _ _)
    have hr := ih (fun p hp => h p (List.mem_cons_of_mem _ hp))
    simp only [Balances.total, List.map_cons, List.sum_cons] at hr ⊢
    omega

end Exact

/-! ## Rounding to binary64 -/

theorem scale_eq : scale = 2 ^ 1074 := by
  unfold scale
  rw [Nat.shiftLeft_eq, Nat.one_mul]

theorem maxFinite_eq : maxFinite = (2 ^ 53 - 1) * 2 ^ 2045 := by
  unfold maxFinite
  rw [Nat.shiftLeft_eq]

theorem scale_pos : 0 < scale := by
  rw [scale_eq]
  exact Nat.two_pow_pos _

theorem ulpFrom_spec (a : Nat) (fuel u0 : Nat) :
    (∃ e, e ≤ fuel ∧ ulpFrom a fuel u0 = 2 ^ e * u0) ∧
    (ulpFrom a fuel u0 = u0 ∨ 2 ^ 52 * ulpFrom a fuel u0 ≤ a) := by
  induction fuel generalizing u0 with
  | zero => exact ⟨⟨0, le_refl _, by simp [ulpFrom]⟩, Or.inl rfl⟩
  | succ n ih =>
    by_cases h : a < 2 ^ 53 * u0
    · have hu : ulpFrom a (n + 1) u0 = u0 := by rw [ulpFrom, if_pos h]
      rw [hu]
      exact ⟨⟨0, Nat.zero_le _, by simp⟩, Or.inl rfl⟩
    · have hu : ulpFrom a (n + 1) u0 = ulpFrom a n (2 * u0) := by rw [ulpFrom, if_neg h]
      rw [hu]
      obtain ⟨⟨e, he, hpow⟩, hlow⟩ := ih (2 * u0)
      refine ⟨⟨e + 1, by omega, ?_⟩, Or.inr ?_⟩
      · rw [hpow, pow_succ]; ring
      · rcases hlow with h1 | h1
        · rw [h1]; omega
        · exact h1

theorem ulp_spec (a : Nat) :
    ∃ e, ulp a = 2 ^ e ∧ (ulp a = 1 ∨ 2 ^ 52 * ulp a ≤ a) := by
  obtain ⟨⟨e, _, hpow⟩, hlow⟩ := ulpFrom_spec a 2046 1
  exact ⟨e, by simpa [ulp] using hpow, by simpa [ulp] using hlow⟩

theorem ulp_pos (a : Nat) : 0 < ulp a := by
  obtain ⟨e, he, _⟩ := ulp_spec a
  rw [he]
  exact Nat.two_pow_pos _

theorem roundNat_cases (a : Nat) :
    roundNat a = a / ulp a * ulp a ∨
      (roundNat a = (a / ulp a + 1) * ulp a ∧ 0 < a % ulp a) := by
  have hu := ulp_pos a
  unfold roundNat
  simp only
  split
  · exact Or.inl rfl
  · split
    · exact Or.inr ⟨rfl, by omega⟩
    · split
      · exact Or.inl rfl
      · exact Or.inr ⟨rfl, by omega⟩

theorem roundNat_of_dvd (a : Nat) (h : ulp a ∣ a) : roundNat a = a := by
  rcases roundNat_cases a with h1 | ⟨_, h2⟩
  · rw [h1, Nat.div_mul_cancel h]
  · rw [Nat.mod_eq_zero_of_dvd h] at h2
    exact absurd h2 (lt_irrefl 0)

/-- The spacing around a magnitude below `2 ^ (53 + m)` divides `2 ^ m`. -/
theorem ulp_dvd_pow (a m : Nat) (h : a < 2 ^ 53 * 2 ^ m) : ulp a ∣ 2 ^ m := by
  obtain ⟨e, he, hlow⟩ := ulp_spec a
  rw [he] at hlow ⊢
  apply pow_dvd_pow
  rcases hlow with h1 | h1
  · have : e = 0 := by
      by_contra hne
      have : 1 < 2 ^ e := Nat.one_lt_two_pow hne
      omega
    omega
  · have h2 : 2 ^ (52 + e) < 2 ^ (53 + m) := by
      rw [pow_add, pow_add]
      exact lt_of_le_of_lt h1 h
    have := (Nat.pow_lt_pow_iff_right (by decide : 1 < 2)).1 h2
    omega

theorem maxFinite_lt : maxFinite < 2 ^ 53 * 2 ^ 2045 := by
  rw [maxFinite_eq]
  have h : 0 < 2 ^ 2045 := Nat.two_pow_pos _
  exact Nat.mul_lt_mul_of_pos_right (by decide) h

theorem roundNat_le_maxFinite (a : Nat) (h : a ≤ maxFinite) : roundNat a ≤ maxFinite := by
  rcases roundNat_cases a with h1 | ⟨h1, hr⟩
  · rw [h1]
    exact le_trans (Nat.div_mul_le_self a (ulp a)) h
  · rw [h1]
    have hu := ulp_pos a
    have hdvd : ulp a ∣ maxFinite := by
      have := ulp_dvd_pow a 2045 (lt_of_le_of_lt h maxFinite_lt)
      rw [maxFinite_eq]
      exact Dvd.dvd.mul_left this _
    obtain ⟨m, hm⟩ := hdvd
    have hne : a ≠ ulp a * m := by
      intro heq
      rw [Nat.mod_eq_zero_of_dvd (Dvd.intro m heq.symm)] at hr
      exact absurd hr (lt_irrefl 0)
    have hlt : a < m * ulp a := by
      rw [Nat.mul_comm]
      omega
    have hq : a / ulp a < m := (Nat.div_lt_iff_lt_mul hu).2 hlt
    calc (a / ulp a + 1) * ulp a ≤ m * ulp a := Nat.mul_le_mul_right _ hq
      _ = maxFinite := by rw [hm, Nat.mul_comm]

theorem roundNat_pos (a : Nat) (h : 0 < a) : 0 < roundNat a := by
  have hu := ulp_pos a
  rcases roundNat_cases a with h1 | ⟨h1, _⟩
  · rw [h1]
    have hle : ulp a ≤ a := by
      obtain ⟨_, _, hlow⟩ := ulp_spec a
      rcases hlow with h2 | h2
      · omega
      · omega
    exact Nat.mul_pos (Nat.div_pos hle hu) hu
  · rw [h1]
    exact Nat.mul_pos (Nat.succ_pos _) hu

theorem roundNat_zero : roundNat 0 = 0 := by decide

theorem scaled_le_maxFinite (n : Nat) (h : n < 2 ^ 53) : n * scale ≤ maxFinite := by
  rw [scale_eq, maxFinite_eq]
  have h1 : n * 2 ^ 1074 ≤ (2 ^ 53 - 1) * 2 ^ 1074 := Nat.mul_le_mul_right _ (by omega)
  have h2 : (2 : Nat) ^ 1074 ≤ 2 ^ 2045 := Nat.pow_le_pow_right (by decide) (by decide)
  exact le_trans h1 (Nat.mul_le_mul_left _ h2)

theorem roundNat_scaled (n : Nat) (h : n < 2 ^ 53) : roundNat (n * scale) = n * scale := by
  apply roundNat_of_dvd
  have hlt : n * scale < 2 ^ 53 * 2 ^ 1074 := by
    rw [scale_eq]
    exact Nat.mul_lt_mul_of_pos_right h (Nat.two_pow_pos _)
  have := ulp_dvd_pow (n * scale) 1074 hlt
  rw [← scale_eq] at this
  exact Dvd.dvd.mul_left this _

namespace Num

theorem round_eq_fin (k : Int) (h1 : roundNat k.natAbs = k.natAbs)
    (h2 : k.natAbs ≤ maxFinite) : round k = fin k := by
  unfold round
  simp only [h1]
  rw [if_neg (by omega)]
  split
  · congr 1; omega
  · congr 1; omega

theorem round_ofInt (n : Int) (h : n.natAbs < 2 ^ 53) :
    round (n * (scale : Int)) = ofInt n := by
  have habs : (n * (scale : Int)).natAbs = n.natAbs * scale := by
    rw [Int.natAbs_mul, Int.natAbs_ofNat]
  unfold ofInt
  apply round_eq_fin
  · rw [habs]; exact roundNat_scaled _ h
  · rw [habs]; exact scaled_le_maxFinite _ h

theorem round_finite (k : Int) (h : k.natAbs ≤ maxFinite) :
    ∃ k', round k = fin k' ∧ k'.natAbs ≤ maxFinite ∧ (0 < k → 0 < k') ∧ (k = 0 → k' = 0) := by
  have hle := roundNat_le_maxFinite _ h
  unfold round
  simp only
  rw [if_neg (by omega)]
  split
  · rename_i hneg
    exact ⟨_, rfl, by omega, fun hp => by omega, fun hz => by omega⟩
  · rename_i hneg
    refine ⟨_, rfl, by omega, fun hp => ?_, fun hz => ?_⟩
    · have := roundNat_pos k.natAbs (by omega)
      omega
    · subst hz
      simp [roundNat_zero]

theorem zero_eq_ofInt : zero = ofInt 0 := by simp [zero, ofInt]

theorem add_ofInt (a b : Int) (h : (a + b).natAbs < 2 ^ 53) :
    add (ofInt a) (ofInt b) = ofInt (a + b) := by
  show round (a * (scale : Int) + b * (scale : Int)) = ofInt (a + b)
  rw [← add_mul]
  exact round_ofInt _ h

theorem neg_ofInt (a : Int) : neg (ofInt a) = ofInt (-a) := by
  show fin (-(a * (scale : Int))) = fin (-a * (scale : Int))
  rw [neg_mul]

theorem sub_ofInt (a b : Int) (h : (a - b).natAbs < 2 ^ 53) :
    sub (ofInt a) (ofInt b) = ofInt (a - b) := by
  unfold sub
  rw [neg_ofInt, add_ofInt a (-b) (by rw [← sub_eq_add_neg]; exact h), sub_eq_add_neg]

theorem scale_cast_pos : (0 : Int) < (scale : Int) := by
  exact_mod_cast scale_pos

theorem lt_ofInt (a b : Int) : lt (ofInt a) (ofInt b) = decide (a < b) := by
  show decide (a * (scale : Int) < b * (scale : Int)) = decide (a < b)
  congr 1
  exact propext (mul_lt_mul_right scale_cast_pos)

theorem ofInt_inj (a b : Int) : ofInt a = ofInt b ↔ a = b := by
  constructor
  · intro h
    unfold ofInt at h
    injection h with h
    exact Int.eq_of_mul_eq_mul_right (ne_of_gt scale_cast_pos) h
  · intro h; rw [h]

theorem min_ofInt (a b : Int) : min (ofInt a) (ofInt b) = ofInt (Min.min a b) := by
  show (if lt (ofInt b) (ofInt a) then ofInt b else ofInt a) = ofInt (Min.min a b)
  rw [lt_ofInt]
  by_cases h : b < a
  · simp [h, min_eq_right (le_of_lt h)]
  · simp [h, min_eq_left (not_lt.1 h)]

theorem isZero_ofInt (a : Int) : (ofInt a).isZero = decide (a = 0) := by
  unfold isZero
  rw [zero_eq_ofInt]
  congr 1
  exact propext (ofInt_inj a 0)

theorem truthy_ofInt (a : Int) : (ofInt a).truthy = decide (a ≠ 0) := by
  show decide (a * (scale : Int) ≠ 0) = decide (a ≠ 0)
  congr 1
  apply propext
  constructor
  · intro h ha; exact h (by rw [ha, zero_mul])
  · intro h hz
    rcases Int.mul_eq_zero.1 hz with h1 | h1
    · exact h h1
    · exact absurd h1 (ne_of_gt scale_cast_pos)

theorem orZero_ofInt (a : Int) : (ofInt a).orZero = ofInt a := by
  unfold orZero
  rw [truthy_ofInt]
  by_cases h : a = 0
  · subst h; simp [zero_eq_ofInt]
  · simp [h]

theorem toInt_ofInt (a : Int) : (ofInt a).toInt = a := by
  show a * (scale : Int) / (scale : Int) = a
  exact Int.mul_ediv_cancel _ (ne_of_gt scale_cast_pos)

theorem sub_self_fin (k : Int) : sub (fin k) (fin k) = zero := by
  show round (k + -k) = zero
  rw [add_neg_cancel]
  decide

theorem min_fin (a b : Int) : min (fin a) (fin b) = fin (Min.min a b) := by
  show (if lt (fin b) (fin a) then fin b else fin a) = fin (Min.min a b)
  show (if decide (b < a) then fin b else fin a) = fin (Min.min a b)
  by_cases h : b < a
  · simp [h, min_eq_right (le_of_lt h)]
  · simp [h, min_eq_left (not_lt.1 h)]

end Num

/-! ## One iteration of the greedy loop, seen on the unprocessed suffixes -/

theorem drop_set_afterPay (l : List Party) (n : Nat) (d : Party) (ds : List Party)
    (pay : Num) (h : l.drop n = d :: ds) :
    (l.set n { d with amount := Num.sub d.amount pay }).drop
        (if (Num.sub d.amount pay).isZero then n + 1 else n) = afterPay d pay ds := by
  obtain ⟨hn, _, h2⟩ := drop_cons_inv l n d ds h
  unfold afterPay
  split
  · rw [List.drop_set_of_lt _ _ (Nat.lt_succ_self n), h2]
  · rw [List.drop_set, if_neg (Nat.lt_irrefl n), h]
    simp

theorem loopStep_cons (s : LoopState) (d c : Party) (ds cs : List Party)
    (hd : s.debtors.drop s.i = d :: ds) (hc : s.creditors.drop s.j = c :: cs) :
    ∃ s', loopStep s = some s' ∧
      s'.settlements = s.settlements ++ [⟨d.user, c.user, Num.min d.amount c.amount⟩] ∧
      s'.debtors.drop s'.i = afterPay d (Num.min d.amount c.amount) ds ∧
      s'.creditors.drop s'.j = afterPay c (Num.min d.amount c.amount) cs := by
  obtain ⟨hi, hdi, _⟩ := drop_cons_inv _ _ _ _ hd
  obtain ⟨hj, hcj, _⟩ := drop_cons_inv _ _ _ _ hc
  refine ⟨_, by rw [loopStep, dif_pos ⟨hi, hj⟩], ?_, ?_, ?_⟩
  · simp only [hdi, hcj]
  · simp only [hdi, hcj]
    exact drop_set_afterPay _ _ _ _ _ hd
  · simp only [hdi, hcj]
    exact drop_set_afterPay _ _ _ _ _ hc

theorem loopStep_nil (s : LoopState)
    (h : s.debtors.drop s.i = [] ∨ s.creditors.drop s.j = []) : loopStep s = none := by
  rw [loopStep, dif_neg]
  rintro ⟨hi, hj⟩
  rcases h with h | h
  · rw [List.drop_eq_nil_iff] at h; omega
  · rw [List.drop_eq_nil_iff] at h; omega

theorem whileLoop_of_none (fuel : Nat) (s : LoopState) (h : loopStep s = none) :
    whileLoop fuel s = some s := by
  cases fuel <;> simp [whileLoop, h]

theorem whileLoop_of_some (fuel : Nat) (s s' : LoopState) (h : loopStep s = some s') :
    whileLoop (fuel + 1) s = whileLoop fuel s' := by
  rw [whileLoop, h]

theorem afterPay_length_le (d : Party) (pay : Num) (rest : List Party) :
    (afterPay d pay rest).length ≤ rest.length + 1 := by
  unfold afterPay; split <;> simp

theorem afterPay_self (d : Party) (a : Int) (rest : List Party) (h : d.amount = Num.fin a) :
    afterPay d (Num.fin a) rest = rest := by
  unfold afterPay
  rw [h, Num.sub_self_fin]
  rfl

theorem afterPay_posFinite (d : Party) (a p : Int) (rest : List Party)
    (hd : d.amount = Num.fin a) (ha : a.natAbs ≤ maxFinite) (hp : 0 < p) (hpa : p ≤ a)
    (hrest : AllPosFinite rest) : AllPosFinite (afterPay d (Num.fin p) rest) := by
  obtain ⟨k, hk, hkmax, hkpos, hkzero⟩ := Num.round_finite (a + -p) (by omega)
  have hsub : Num.sub d.amount (Num.fin p) = Num.fin k := by
    rw [hd]; exact hk
  unfold afterPay
  rw [hsub]
  by_cases hz : a + -p = 0
  · have : k = 0 := hkzero hz
    subst this
    simpa [Num.isZero, Num.zero] using hrest
  · have hkp : 0 < k := hkpos (by omega)
    have hnz : (Num.fin k).isZero = false := by
      simp [Num.isZero, Num.zero]; omega
    rw [hnz]
    intro q hq
    rcases List.mem_cons.1 hq with hq | hq
    · subst hq
      exact ⟨k, rfl, hkp, hkmax⟩
    · exact hrest q hq

/-- The run of the loop from a state whose outstanding amounts are finite and
strictly positive: it stops, it adds no instruction when one side is empty
and fewer instructions than there are parties left otherwise, and every
instruction it adds pays a strictly positive amount. -/
theorem whileLoop_count (fuel : Nat) (s : LoopState)
    (hD : AllPosFinite (s.debtors.drop s.i)) (hC : AllPosFinite (s.creditors.drop s.j))
    (h : (s.debtors.drop s.i).length + (s.creditors.drop s.j).length ≤ fuel) :
    ∃ s', whileLoop fuel s = some s' ∧ loopStep s' = none ∧
      (s.debtors.drop s.i = [] ∨ s.creditors.drop s.j = [] →
        s'.settlements = s.settlements) ∧
      (s.debtors.drop s.i ≠ [] → s.creditors.drop s.j ≠ [] →
        s'.settlements.length + 1 ≤ s.settlements.length
          + ((s.debtors.drop s.i).length + (s.creditors.drop s.j).length)) ∧
      (∀ t ∈ s'.settlements, t ∈ s.settlements ∨ Num.lt Num.zero t.amount = true) := by
  induction fuel generalizing s with
  | zero =>
    have h1 : s.debtors.drop s.i = [] := List.length_eq_zero.1 (by omega)
    have hn := loopStep_nil s (Or.inl h1)
    exact ⟨s, whileLoop_of_none _ _ hn, hn, fun _ => rfl, fun hne => absurd h1 hne,
      fun t ht => Or.inl ht⟩
  | succ n ih =>
    rcases hDd : s.debtors.drop s.i with _ | ⟨d, ds⟩
    · have hn := loopStep_nil s (Or.inl hDd)
      exact ⟨s, whileLoop_of_none _ _ hn, hn, fun _ => rfl, fun hne => absurd rfl hne,
        fun t ht => Or.inl ht⟩
    · rcases hCc : s.creditors.drop s.j with _ | ⟨c, cs⟩
      · have hn := loopStep_nil s (Or.inr hCc)
        exact ⟨s, whileLoop_of_none _ _ hn, hn, fun _ => rfl, fun _ hne => absurd rfl hne,
          fun t ht => Or.inl ht⟩
      · obtain ⟨s1, hstep, hset, hd1, hc1⟩ := loopStep_cons s d c ds cs hDd hCc
        rw [hDd] at hD h
        rw [hCc] at hC h
        simp only [List.length_cons] at h
        obtain ⟨a, hda, hapos, hamax⟩ := hD d (List.mem_cons_self _ _)
        obtain ⟨b, hcb, hbpos, hbmax⟩ := hC c (List.mem_cons_self _ _)
        have hDs : AllPosFinite ds := fun q hq => hD q (List.mem_cons_of_mem _ hq)
        have hCs : AllPosFinite cs := fun q hq => hC q (List.mem_cons_of_mem _ hq)
        have hmin : Num.min d.amount c.amount = Num.fin (min a b) := by
          rw [hda, hcb, Num.min_fin]
        rw [hmin] at hset hd1 hc1
        have hD1 : AllPosFinite (s1.debtors.drop s1.i) := by
          rw [hd1]
          exact afterPay_posFinite d a (min a b) ds hda hamax (lt_min hapos hbpos)
            (min_le_left _ _) hDs
        have hC1 : AllPosFinite (s1.creditors.drop s1.j) := by
          rw [hc1]
          exact afterPay_posFinite c b (min a b) cs hcb hbmax (lt_min hapos hbpos)
            (min_le_right _ _) hCs
        have hlen : (s1.debtors.drop s1.i).length + (s1.creditors.drop s1.j).length
            ≤ ds.length + cs.length + 1 := by
          rw [hd1, hc1]
          rcases le_total a b with hle | hle
          · rw [min_eq_left hle, afterPay_self d a ds hda]
            have := afterPay_length_le c (Num.fin a) cs
            omega
          · rw [min_eq_right hle, afterPay_self c b cs hcb]
            have := afterPay_length_le d (Num.fin b) ds
            omega
        obtain ⟨s2, hrun, hstop, hstay, hcount, hpos⟩ := ih s1 hD1 hC1 (by omega)
        refine ⟨s2, by rw [whileLoop_of_some _ _ _ hstep]; exact hrun, hstop, ?_, ?_, ?_⟩
        · rintro (hcon | hcon) <;> cases hcon
        · intro _ _
          simp only [List.length_cons]
          by_cases hnil : s1.debtors.drop s1.i = [] ∨ s1.creditors.drop s1.j = []
          · rw [hstay hnil, hset]
            simp only [List.length_append, List.length_singleton]
            omega
          · have hnil' := not_or.1 hnil
            have := hcount hnil'.1 hnil'.2
            rw [hset] at this
            simp only [List.length_append, List.length_singleton] at this
            omega
        · intro t ht
          rcases hpos t ht with ht1 | ht1
          · rw [hset] at ht1
            rcases List.mem_append.1 ht1 with ht2 | ht2
            · exact Or.inl ht2
            · right
              rw [List.mem_singleton] at ht2
              subst ht2
              show decide ((0 : Int) < min a b) = true
              exact decide_eq_true (lt_min hapos hbpos)
          · exact Or.inr ht1

/-! ## The loop on safe integers computes what exact arithmetic computes -/

theorem creditorsOf_ofInts (n : Exact.Balances) :
    creditorsOf (Balances.ofInts n) = (Exact.creditorsOf n).map Party.ofExact := by
  induction n with
  | nil => rfl
  | cons p rest ih =>
    obtain ⟨u, a⟩ := p
    have hlt : Num.lt Num.zero (Num.ofInt a) = decide (0 < a) := by
      rw [Num.zero_eq_ofInt, Num.lt_ofInt]
    simp only [Balances.ofInts, List.map_cons] at ih ⊢
    by_cases ha : a > 0
    · simp [creditorsOf, Exact.creditorsOf, hlt, ha, ih, Party.ofExact]
    · simp [creditorsOf, Exact.creditorsOf, hlt, ha, ih]

theorem debtorsOf_ofInts (n : Exact.Balances) :
    debtorsOf (Balances.ofInts n) = (Exact.debtorsOf n).map Party.ofExact := by
  induction n with
  | nil => rfl
  | cons p rest ih =>
    obtain ⟨u, a⟩ := p
    have hlt : Num.lt Num.zero (Num.ofInt a) = decide (0 < a) := by
      rw [Num.zero_eq_ofInt, Num.lt_ofInt]
    have hlt2 : Num.lt (Num.ofInt a) Num.zero = decide (a < 0) := by
      rw [Num.zero_eq_ofInt, Num.lt_ofInt]
    simp only [Balances.ofInts, List.map_cons] at ih ⊢
    by_cases ha : a > 0
    · simp [debtorsOf, Exact.debtorsOf, hlt, ha, ih]
    · by_cases ha2 : a < 0
      · simp [debtorsOf, Exact.debtorsOf, hlt, hlt2, ha, ha2, ih, Party.ofExact,
          Num.neg_ofInt]
      · simp [debtorsOf, Exact.debtorsOf, hlt, hlt2, ha, ha2, ih]

theorem afterPay_ofExact (d : Exact.Party) (pay : Int) (rest : List Exact.Party)
    (h : (d.amount - pay).natAbs < 2 ^ 53) :
    afterPay (Party.ofExact d) (Num.ofInt pay) (rest.map Party.ofExact)
      = (Exact.afterPay d pay rest).map Party.ofExact := by
  unfold afterPay Exact.afterPay
  simp only [Party.ofExact]
  rw [Num.sub_ofInt _ _ h, Num.isZero_ofInt]
  by_cases hz : d.amount - pay = 0
  · simp [hz]
  · simp [hz, Party.ofExact]

theorem Exact.afterPay_safe (d : Exact.Party) (pay : Int) (rest : List Exact.Party)
    (hpay : 0 ≤ pay) (h : Exact.AllSafe (d :: rest)) :
    Exact.AllSafe (Exact.afterPay d pay rest) := by
  unfold Exact.afterPay
  split
  · exact fun p hp => h p (List.mem_cons_of_mem _ hp)
  · intro p hp
    rcases List.mem_cons.1 hp with hp | hp
    · subst hp
      have := h d (List.mem_cons_self _ _)
      show d.amount - pay < 2 ^ 53
      omega
    · exact h p (List.mem_cons_of_mem _ hp)

/-- On outstanding amounts that are positive integers below `2^53` the loop
on JavaScript numbers returns the instructions of the loop in exact
arithmetic. -/
theorem whileLoop_sim (fuel : Nat) (sE : Exact.LoopState) (s : LoopState)
    (hset : s.settlements = sE.settlements.map Instruction.ofExact)
    (hD : s.debtors.drop s.i = (sE.debtors.drop sE.i).map Party.ofExact)
    (hC : s.creditors.drop s.j = (sE.creditors.drop sE.j).map Party.ofExact)
    (hposD : Exact.AllPositive (sE.debtors.drop sE.i))
    (hposC : Exact.AllPositive (sE.creditors.drop sE.j))
    (hsafeD : Exact.AllSafe (sE.debtors.drop sE.i))
    (hsafeC : Exact.AllSafe (sE.creditors.drop sE.j))
    (sE' : Exact.LoopState) (hrun : Exact.whileLoop fuel sE = some sE') :
    ∃ s', whileLoop fuel s = some s' ∧
      s'.settlements = sE'.settlements.map Instruction.ofExact := by
  induction fuel generalizing sE s with
  | zero =>
    cases hstepE : Exact.loopStep sE with
    | some sE1 => simp [Exact.whileLoop, hstepE] at hrun
    | none =>
      rw [Exact.whileLoop_of_none_exact _ _ hstepE] at hrun
      have hEq : sE' = sE := by injection hrun with h; exact h.symm
      rw [hEq]
      have hnil : s.debtors.drop s.i = [] ∨ s.creditors.drop s.j = [] := by
        rcases hDd : sE.debtors.drop sE.i with _ | ⟨d, ds⟩
        · left; rw [hD, hDd]; rfl
        · rcases hCc : sE.creditors.drop sE.j with _ | ⟨c, cs⟩
          · right; rw [hC, hCc]; rfl
          · obtain ⟨s1, h1, _⟩ := Exact.loopStep_cons_exact sE d c ds cs hDd hCc
            rw [hstepE] at h1; cases h1
      exact ⟨s, whileLoop_of_none _ _ (loopStep_nil s hnil), hset⟩
  | succ n ih =>
    rcases hDd : sE.debtors.drop sE.i with _ | ⟨d, ds⟩
    · rw [Exact.whileLoop_of_none_exact _ _ (Exact.loopStep_nil_exact sE (Or.inl hDd))] at hrun
      cases hrun
      rw [hDd] at hD
      exact ⟨s, whileLoop_of_none _ _ (loopStep_nil s (Or.inl hD)), hset⟩
    · rcases hCc : sE.creditors.drop sE.j with _ | ⟨c, cs⟩
      · rw [Exact.whileLoop_of_none_exact _ _ (Exact.loopStep_nil_exact sE (Or.inr hCc))]
          at hrun
        cases hrun
        rw [hCc] at hC
        exact ⟨s, whileLoop_of_none _ _ (loopStep_nil s (Or.inr hC)), hset⟩
      · obtain ⟨sE1, hstepE, hsetE, hdE, hcE⟩ :=
          Exact.loopStep_cons_exact sE d c ds cs hDd hCc
        rw [Exact.whileLoop_of_some_exact _ _ _ hstepE] at hrun
        rw [hDd] at hD hposD hsafeD
        rw [hCc] at hC hposC hsafeC
        simp only [List.map_cons] at hD hC
        obtain ⟨s1, hstep, hset1, hd1, hc1⟩ :=
          loopStep_cons s (Party.ofExact d) (Party.ofExact c) _ _ hD hC
        have hdpos : 0 < d.amount := hposD d (List.mem_cons_self _ _)
        have hcpos : 0 < c.amount := hposC c (List.mem_cons_self _ _)
        have hdsafe : d.amount < 2 ^ 53 := hsafeD d (List.mem_cons_self _ _)
        have hcsafe : c.amount < 2 ^ 53 := hsafeC c (List.mem_cons_self _ _)
        have hminpos : 0 < min d.amount c.amount := lt_min hdpos hcpos
        have hmin : Num.min (Party.ofExact d).amount (Party.ofExact c).amount
            = Num.ofInt (min d.amount c.amount) := by
          simp only [Party.ofExact]
          exact Num.min_ofInt _ _
        rw [hmin] at hset1 hd1 hc1
        have hb1 : (d.amount - min d.amount c.amount).natAbs < 2 ^ 53 := by
          have := min_le_left d.amount c.amount
          omega
        have hb2 : (c.amount - min d.amount c.amount).natAbs < 2 ^ 53 := by
          have := min_le_right d.amount c.amount
          omega
        rw [afterPay_ofExact d _ ds hb1] at hd1
        rw [afterPay_ofExact c _ cs hb2] at hc1
        have hrec := ih sE1 s1
          (by rw [hset1, hsetE, hset]; simp [Instruction.ofExact, Party.ofExact])
          (by rw [hd1, hdE]) (by rw [hc1, hcE])
          (by rw [hdE]; exact Exact.afterPay_positive_exact d _ ds (min_le_left _ _) hposD)
          (by rw [hcE]; exact Exact.afterPay_positive_exact c _ cs (min_le_right _ _) hposC)
          (by rw [hdE]; exact Exact.afterPay_safe d _ ds (le_of_lt hminpos) hsafeD)
          (by rw [hcE]; exact Exact.afterPay_safe c _ cs (le_of_lt hminpos) hsafeC)
          hrun
        obtain ⟨s2, hrun2, hset2⟩ := hrec
        exact ⟨s2, by rw [whileLoop_of_some _ _ _ hstep]; exact hrun2, hset2⟩

theorem Exact.creditorsOf_safe (n : Exact.Balances) (h : ∀ p ∈ n, p.2.natAbs < 2 ^ 53) :
    Exact.AllSafe (Exact.creditorsOf n) := by
  induction n with
  | nil => intro p hp; simp [Exact.creditorsOf] at hp
  | cons q rest ih =>
    obtain ⟨k, v⟩ := q
    have hv := h (k, v) (List.mem_cons_self _ _)
    have hr := ih (fun p hp => h p (List.mem_cons_of_mem _ hp))
    by_cases hpos : v > 0
    · intro p hp
      simp only [Exact.creditorsOf, hpos, if_true, List.mem_cons] at hp
      rcases hp with hp | hp
      · subst hp; show v < 2 ^ 53; simp only at hv; omega
      · exact hr p hp
    · simpa [Exact.creditorsOf, hpos] using hr

theorem Exact.debtorsOf_safe (n : Exact.Balances) (h : ∀ p ∈ n, p.2.natAbs < 2 ^ 53) :
    Exact.AllSafe (Exact.debtorsOf n) := by
  induction n with
  | nil => intro p hp; simp [Exact.debtorsOf] at hp
  | cons q rest ih =>
    obtain ⟨k, v⟩ := q
    have hv := h (k, v) (List.mem_cons_self _ _)
    have hr := ih (fun p hp => h p (List.mem_cons_of_mem _ hp))
    by_cases hpos : v > 0
    · simpa [Exact.debtorsOf, hpos] using hr
    · by_cases hneg : v < 0
      · intro p hp
        simp only [Exact.debtorsOf, hpos, if_false, hneg, if_true, List.mem_cons] at hp
        rcases hp with hp | hp
        · subst hp; show -v < 2 ^ 53; simp only at hv; omega
        · exact hr p hp
      · simpa [Exact.debtorsOf, hpos, hneg] using hr

/-! ## Balance aggregation and sums on safe integers -/

theorem Exact.mass_add_le (n : Exact.Balances) (u : UserId) (x : Int) :
    (n.add u x).mass ≤ n.mass + x.natAbs := by
  induction n with
  | nil => simp [Exact.Balances.add, Exact.Balances.mass]
  | cons p rest ih =>
    obtain ⟨k, v⟩ := p
    simp only [Exact.Balances.mass] at ih
    by_cases hk : k = u
    · simp only [Exact.Balances.add, hk, if_true, Exact.Balances.mass, List.map_cons,
        List.sum_cons]
      omega
    · simp only [Exact.Balances.add, hk, if_false, Exact.Balances.mass, List.map_cons,
        List.sum_cons]
      omega

theorem Balances.update_ofInts (n : Exact.Balances) (u : UserId) (f : Num → Num) (x : Int)
    (hf : ∀ v : Int, (v + x).natAbs < 2 ^ 53 → f (Num.ofInt v) = Num.ofInt (v + x))
    (h : n.mass + x.natAbs < 2 ^ 53) :
    (Balances.ofInts n).update u f = Balances.ofInts (n.add u x) := by
  induction n with
  | nil =>
    simp only [Balances.ofInts, List.map_nil, Balances.update, Exact.Balances.add,
      List.map_cons]
    rw [Num.zero_eq_ofInt, hf 0 (by omega)]
  | cons p rest ih =>
    obtain ⟨k, v⟩ := p
    simp only [Exact.Balances.mass, List.map_cons, List.sum_cons] at h
    have hrest : Exact.Balances.mass rest + x.natAbs < 2 ^ 53 := by
      simp only [Exact.Balances.mass]; omega
    have ih' := ih hrest
    simp only [Balances.ofInts] at ih' ⊢
    by_cases hk : k = u
    · simp only [List.map_cons, Balances.update, Exact.Balances.add, hk, if_true]
      rw [Num.orZero_ofInt, hf v (by omega)]
    · simp only [List.map_cons, Balances.update, Exact.Balances.add, hk, if_false, ih']

theorem Balances.add_ofInts (n : Exact.Balances) (u : UserId) (x : Int)
    (h : n.mass + x.natAbs < 2 ^ 53) :
    (Balances.ofInts n).add u (Num.ofInt x) = Balances.ofInts (n.add u x) :=
  Balances.update_ofInts n u _ x (fun v hv => Num.add_ofInt v x hv) h

theorem Balances.sub_ofInts (n : Exact.Balances) (u : UserId) (x : Int)
    (h : n.mass + x.natAbs < 2 ^ 53) :
    (Balances.ofInts n).sub u (Num.ofInt x) = Balances.ofInts (n.add u (-x)) :=
  Balances.update_ofInts n u _ (-x)
    (fun v hv => by
      show Num.sub (Num.ofInt v) (Num.ofInt x) = Num.ofInt (v + -x)
      rw [← sub_eq_add_neg] at hv ⊢
      exact Num.sub_ofInt v x hv)
    (by omega)

theorem debitSplits_ofInts (splits : List Split) (n : Exact.Balances)
    (hint : ∀ s ∈ splits, s.amount = Num.ofInt s.amount.toInt)
    (hb : n.mass + splitVolume splits < 2 ^ 53) :
    debitSplits (Balances.ofInts n) splits = Balances.ofInts (Exact.debitSplits n splits) ∧
      (Exact.debitSplits n splits).mass ≤ n.mass + splitVolume splits := by
  induction splits generalizing n with
  | nil => exact ⟨rfl, by simp [Exact.debitSplits, splitVolume]⟩
  | cons sp rest ih =>
    simp only [splitVolume, List.map_cons, List.sum_cons] at hb
    have hsp := hint sp (List.mem_cons_self _ _)
    have hmass := Exact.mass_add_le n sp.user (-sp.amount.toInt)
    rw [Int.natAbs_neg] at hmass
    have hstep : (Balances.ofInts n).sub sp.user sp.amount
        = Balances.ofInts (n.add sp.user (-sp.amount.toInt)) := by
      rw [hsp, Num.toInt_ofInt]
      rw [hsp, Num.toInt_ofInt] at hb
      exact Balances.sub_ofInts n sp.user _ (by omega)
    obtain ⟨h1, h2⟩ := ih (n.add sp.user (-sp.amount.toInt))
      (fun s hs => hint s (List.mem_cons_of_mem _ hs))
      (by simp only [splitVolume]; omega)
    constructor
    · simp only [debitSplits, Exact.debitSplits, List.foldl_cons] at h1 ⊢
      rw [hstep]
      exact h1
    · simp only [Exact.debitSplits, List.foldl_cons, splitVolume, List.map_cons,
        List.sum_cons] at h2 ⊢
      omega

theorem applyExpense_ofInts (e : Expense) (n : Exact.Balances)
    (hamount : e.amount = Num.ofInt e.amount.toInt)
    (hint : ∀ s ∈ e.splits, s.amount = Num.ofInt s.amount.toInt)
    (hb : n.mass + (e.amount.toInt.natAbs + splitVolume e.splits) < 2 ^ 53) :
    applyExpense (Balances.ofInts n) e = Balances.ofInts (Exact.applyExpense n e) ∧
      (Exact.applyExpense n e).mass ≤ n.mass + (e.amount.toInt.natAbs + splitVolume e.splits) := by
  have hmass := Exact.mass_add_le n e.payer e.amount.toInt
  have hstep : (Balances.ofInts n).add e.payer e.amount
      = Balances.ofInts (n.add e.payer e.amount.toInt) := by
    rw [hamount, Num.toInt_ofInt]
    rw [hamount, Num.toInt_ofInt] at hb
    exact Balances.add_ofInts n e.payer _ (by omega)
  obtain ⟨h1, h2⟩ := debitSplits_ofInts e.splits (n.add e.payer e.amount.toInt) hint
    (by omega)
  constructor
  · unfold applyExpense Exact.applyExpense
    rw [hstep]
    exact h1
  · unfold Exact.applyExpense
    omega

theorem foldl_applyExpense_ofInts (es : List Expense) (n : Exact.Balances)
    (hamount : ∀ e ∈ es, e.amount = Num.ofInt e.amount.toInt)
    (hint : ∀ e ∈ es, ∀ s ∈ e.splits, s.amount = Num.ofInt s.amount.toInt)
    (hb : n.mass + volume es < 2 ^ 53) :
    es.foldl applyExpense (Balances.ofInts n)
        = Balances.ofInts (es.foldl Exact.applyExpense n) ∧
      (es.foldl Exact.applyExpense n).mass ≤ n.mass + volume es := by
  induction es generalizing n with
  | nil => exact ⟨rfl, by simp [volume]⟩
  | cons e rest ih =>
    simp only [volume, List.map_cons, List.sum_cons] at hb
    obtain ⟨h1, h2⟩ := applyExpense_ofInts e n (hamount e (List.mem_cons_self _ _))
      (hint e (List.mem_cons_self _ _)) (by omega)
    obtain ⟨h3, h4⟩ := ih (Exact.applyExpense n e)
      (fun x hx => hamount x (List.mem_cons_of_mem _ hx))
      (fun x hx => hint x (List.mem_cons_of_mem _ hx))
      (by simp only [volume]; omega)
    constructor
    · simp only [List.foldl_cons]
      rw [h1]
      exact h3
    · simp only [List.foldl_cons, volume, List.map_cons, List.sum_cons] at h4 ⊢
      omega

theorem foldl_total_ofInts (n : Exact.Balances) (acc : Int)
    (h : acc.natAbs + n.mass < 2 ^ 53) :
    (Balances.ofInts n).foldl (fun a p => Num.add a p.2) (Num.ofInt acc)
      = Num.ofInt (acc + n.total) := by
  induction n generalizing acc with
  | nil => simp [Balances.ofInts, Exact.Balances.total]
  | cons p rest ih =>
    obtain ⟨k, v⟩ := p
    simp only [Exact.Balances.mass, List.map_cons, List.sum_cons] at h
    have ih' := ih (acc + v) (by simp only [Exact.Balances.mass]; omega)
    simp only [Balances.ofInts] at ih' ⊢
    simp only [List.map_cons, List.foldl_cons, Exact.Balances.total, List.sum_cons]
    rw [Num.add_ofInt acc v (by omega), ih']
    simp only [Exact.Balances.total]
    congr 1
    ring

theorem total_ofInts (n : Exact.Balances) (h : n.mass < 2 ^ 53) :
    (Balances.ofInts n).total = Num.ofInt n.total := by
  have := foldl_total_ofInts n 0 (by simpa using h)
  rw [zero_add] at this
  unfold Balances.total
  rw [Num.zero_eq_ofInt]
  exact this

theorem foldl_amounts_ofInts (l : List Expense) (acc : Int)
    (hint : ∀ e ∈ l, e.amount = Num.ofInt e.amount.toInt)
    (h : acc.natAbs + (l.map (fun e => e.amount.toInt.natAbs)).sum < 2 ^ 53) :
    l.foldl (fun sum e => Num.add sum e.amount) (Num.ofInt acc)
      = Num.ofInt (acc + (l.map (fun e => e.amount.toInt)).sum) := by
  induction l generalizing acc with
  | nil => simp
  | cons e rest ih =>
    simp only [List.map_cons, List.sum_cons] at h
    have he := hint e (List.mem_cons_self _ _)
    have ih' := ih (acc + e.amount.toInt) (fun x hx => hint x (List.mem_cons_of_mem _ hx))
      (by omega)
    simp only [List.foldl_cons, List.map_cons, List.sum_cons]
    have hadd : Num.add (Num.ofInt acc) e.amount = Num.ofInt (acc + e.amount.toInt) := by
      rw [he, Num.toInt_ofInt]
      rw [he, Num.toInt_ofInt] at h
      exact Num.add_ofInt _ _ (by omega)
    rw [hadd, ih']
    congr 1
    ring

/-! ## The lock helper and the comment path -/

theorem findExpense_id (st : Store) (id : Nat) (e : Expense)
    (h : st.findExpense id = some e) : e.id = id := by
  have := List.find?_some h
  simpa using this

theorem find?_map_replace (l : List Expense) (id : Nat) (e e' : Expense)
    (h : l.find? (fun x => x.id = id) = some e) (hid : e'.id = id) :
    (l.map (fun x => if x.id = e'.id then e' else x)).find? (fun x => x.id = id)
      = some e' := by
  induction l with
  | nil => simp at h
  | cons x rest ih =>
    by_cases hx : x.id = id
    · simp [List.find?_cons, hx, hid]
    · have hrest : rest.find? (fun x => x.id = id) = some e := by
        simpa [List.find?_cons, hx] using h
      have := ih hrest
      simp only [List.map_cons, hid, hx, if_false, List.find?_cons, decide_False]
      simpa [hid] using this

theorem findExpense_saveExpense (st : Store) (id : Nat) (e e' : Expense)
    (h : st.findExpense id = some e) (hid : e'.id = id) :
    (st.saveExpense e').findExpense id = some e' :=
  find?_map_replace st.expenses id e e' h hid

theorem lockIfOld_of_locked (now : Nat) (e : Expense) (h : e.locked = true) :
    lockIfOld now e = ⟨e, false⟩ := by
  simp [lockIfOld, h]

theorem lockIfOld_of_old (now : Nat) (e : Expense) (hl : e.locked = false)
    (h : olderThanSevenDays now e.createdAt = true) :
    lockIfOld now e = ⟨{ e with locked := true, updatedAt := now }, true⟩ := by
  simp [lockIfOld, hl, h]

theorem lockIfOld_of_recent (now : Nat) (e : Expense)
    (h : olderThanSevenDays now e.createdAt = false) :
    lockIfOld now e = ⟨e, false⟩ := by
  simp [lockIfOld, h]

/-- The answer and the store after `addComment` met an already locked
expense. -/
theorem addComment_locked (now : Nat) (user : UserId) (st : Store) (id : Nat)
    (text emoji : Option String) (e : Expense)
    (hfind : st.findExpense id = some e)
    (hbody : truthyStr text = true ∨ truthyStr emoji = true)
    (hl : e.locked = true) :
    addComment now user st id text emoji
        = (⟨403, Body.message "Expense is locked and cannot be commented on"⟩, st) := by
  have hguard : (!truthyStr text && !truthyStr emoji) = false := by
    rcases hbody with h | h <;> simp [h]
  simp [addComment, hguard, hfind, lockIfOld_of_locked now e hl, Store.commit, hl]

/-- The answer and the store after `addComment` met an unlocked expense
older than seven days. -/
theorem addComment_aged (now : Nat) (user : UserId) (st : Store) (id : Nat)
    (text emoji : Option String) (e : Expense)
    (hfind : st.findExpense id = some e)
    (hbody : truthyStr text = true ∨ truthyStr emoji = true)
    (hl : e.locked = false) (hold : olderThanSevenDays now e.createdAt = true) :
    addComment now user st id text emoji
        = (⟨403, Body.message "Expense is locked and cannot be commented on"⟩,
            st.saveExpense { e with locked := true, updatedAt := now }) := by
  have hguard : (!truthyStr text && !truthyStr emoji) = false := by
    rcases hbody with h | h <;> simp [h]
  simp [addComment, hguard, hfind, lockIfOld_of_old now e hl hold, Store.commit]

/-- The answer and the store after `addComment` met an unlocked expense not
older than seven days. -/
theorem addComment_appends (now : Nat) (user : UserId) (st : Store) (id : Nat)
    (text emoji : Option String) (e : Expense)
    (hfind : st.findExpense id = some e)
    (hbody : truthyStr text = true ∨ truthyStr emoji = true)
    (hl : e.locked = false) (hrecent : olderThanSevenDays now e.createdAt = false) :
    addComment now user st id text emoji
      = (⟨201, Body.expense { e with comments := e.comments ++ [⟨user, text, emoji⟩],
                                       updatedAt := now }⟩,
          st.saveExpense { e with comments := e.comments ++ [⟨user, text, emoji⟩],
                                  updatedAt := now }) := by
  have hguard : (!truthyStr text && !truthyStr emoji) = false := by
    rcases hbody with h | h <;> simp [h]
  simp [addComment, hguard, hfind, lockIfOld_of_recent now e hrecent, Store.commit, hl]

/-- C6: for an existing expense and a comment with a non-empty text or emoji,
`addComment` answers 403 when the expense is already locked or its age
exceeds seven days, leaving the comments unchanged and the stored expense with
`locked = true` (the stored expense is the original one when that was locked,
and the original one with `locked` set and `updatedAt` rewritten otherwise);
when the expense is unlocked and at most seven days old the comment becomes
the last element of the stored comments and `locked` stays false. -/
theorem addComment_lock_policy (now : Nat) (user : UserId) (st : Store) (id : Nat)
    (text emoji : Option String) (e : Expense)
    (hfind : st.findExpense id = some e)
    (hbody : truthyStr text = true ∨ truthyStr emoji = true) :
    (e.locked = true ∨ 7 * msPerDay < (now : Int) - (e.createdAt : Int) →
      (addComment now user st id text emoji).1
          = ⟨403, Body.message "Expense is locked and cannot be commented on"⟩ ∧
      ∃ stored, (addComment now user st id text emoji).2.findExpense id = some stored ∧
        stored = { e with locked := true,
                          updatedAt := if e.locked then e.updatedAt else now } ∧
        stored.comments = e.comments ∧ stored.locked = true) ∧
    (e.locked = false ∧ ¬ 7 * msPerDay < (now : Int) - (e.createdAt : Int) →
      ∃ stored, (addComment now user st id text emoji).1 = ⟨201, Body.expense stored⟩ ∧
        (addComment now user st id text emoji).2.findExpense id = some stored ∧
        stored = { e with comments := e.comments ++ [⟨user, text, emoji⟩],
                          updatedAt := now } ∧
        stored.comments.getLast? = some ⟨user, text, emoji⟩ ∧
        stored.comments.dropLast = e.comments ∧ stored.locked = false) := by
  have hid := findExpense_id st id e hfind
  constructor
  · intro hlock
    cases hl : e.locked with
    | true =>
      rw [addComment_locked now user st id text emoji e hfind hbody hl]
      refine ⟨rfl, e, hfind, ?_, rfl, hl⟩
      cases e
      simp only at hl
      subst hl
      rfl
    | false =>
      have hold : olderThanSevenDays now e.createdAt = true := by
        rcases hlock with h | h
        · rw [hl] at h; cases h
        · simpa [olderThanSevenDays] using h
      rw [addComment_aged now user st id text emoji e hfind hbody hl hold]
      exact ⟨rfl, _, findExpense_saveExpense st id e _ hfind hid, by simp, rfl, rfl⟩
  · rintro ⟨hl, hage⟩
    have hrecent : olderThanSevenDays now e.createdAt = false := by
      simpa [olderThanSevenDays] using hage
    rw [addComment_appends now user st id text emoji e hfind hbody hl hrecent]
    exact ⟨_, rfl, findExpense_saveExpense st id e _ hfind hid, rfl, by simp, by simp, hl⟩

set_option maxRecDepth 100000 in
theorem addComment_lock_policy_witness :
    (dinner.locked = true ∨ 7 * msPerDay < ((691201000 : Nat) : Int) - (dinner.createdAt : Int) →
      (addComment 691201000 2 dinnerStore 100 (some "thanks") none).1
          = ⟨403, Body.message "Expense is locked and cannot be commented on"⟩ ∧
      ∃ stored, (addComment 691201000 2 dinnerStore 100 (some "thanks") none).2.findExpense 100
          = some stored ∧
        stored = { dinner with locked := true,
                               updatedAt := if dinner.locked then dinner.updatedAt
                                            else 691201000 } ∧
        stored.comments = dinner.comments ∧ stored.locked = true) ∧
    (dinner.locked = false ∧ ¬ 7 * msPerDay < ((691201000 : Nat) : Int) - (dinner.createdAt : Int) →
      ∃ stored, (addComment 691201000 2 dinnerStore 100 (some "thanks") none).1
          = ⟨201, Body.expense stored⟩ ∧
        (addComment 691201000 2 dinnerStore 100 (some "thanks") none).2.findExpense 100
          = some stored ∧
        stored = { dinner with comments := dinner.comments ++ [⟨2, some "thanks", none⟩],
                               updatedAt := 691201000 } ∧
        stored.comments.getLast? = some ⟨2, some "thanks", none⟩ ∧
        stored.comments.dropLast = dinner.comments ∧ stored.locked = false) :=
  addComment_lock_policy 691201000 2 dinnerStore 100 (some "thanks") none dinner rfl
    (Or.inl (by decide))

/-- C10 (amended): `lockIfOld` is idempotent and one-way. Whenever a first run
at `now1` leaves the expense locked, a second run at a later time `now2`
returns the same expense and does not save; a run never turns `locked` from
true to false; a run that does not save returns the expense unchanged, and a
run that saves changes `locked` and the `updatedAt` timestamp only. -/
theorem lockIfOld_idempotent (e : Expense) (now1 now2 : Nat) (_h : now1 ≤ now2) :
    ((lockIfOld now1 e).expense.locked = true →
      lockIfOld now2 (lockIfOld now1 e).expense = ⟨(lockIfOld now1 e).expense, false⟩) ∧
    (e.locked = true → (lockIfOld now1 e).expense.locked = true) ∧
    (e.locked = true → (lockIfOld now2 (lockIfOld now1 e).expense).expense.locked = true) ∧
    ((lockIfOld now1 e).saved = false → (lockIfOld now1 e).expense = e) ∧
    (lockIfOld now1 e).expense
      = { e with locked := (lockIfOld now1 e).expense.locked,
                 updatedAt := (lockIfOld now1 e).expense.updatedAt } ∧
    (lockIfOld now2 (lockIfOld now1 e).expense).expense
      = { e with locked := (lockIfOld now2 (lockIfOld now1 e).expense).expense.locked,
                 updatedAt :=
                   (lockIfOld now2 (lockIfOld now1 e).expense).expense.updatedAt } := by
  have hfield : ∀ (now : Nat) (x : Expense),
      (lockIfOld now x).expense = { x with locked := (lockIfOld now x).expense.locked,
                                           updatedAt := (lockIfOld now x).expense.updatedAt } := by
    intro now x
    unfold lockIfOld
    split <;> rfl
  have hmono : ∀ (now : Nat) (x : Expense), x.locked = true →
      (lockIfOld now x).expense.locked = true := by
    intro now x hx
    rw [lockIfOld_of_locked now x hx]
    exact hx
  refine ⟨fun h => lockIfOld_of_locked now2 _ h, hmono now1 e,
    fun h => hmono now2 _ (hmono now1 e h), ?_, hfield now1 e, ?_⟩
  · intro hs
    unfold lockIfOld at hs ⊢
    split
    · rename_i hc; simp [hc] at hs
    · rfl
  · cases hl : e.locked with
    | true =>
      rw [lockIfOld_of_locked now1 e hl, lockIfOld_of_locked now2 e hl]
    | false =>
      cases hold : olderThanSevenDays now1 e.createdAt with
      | true =>
        rw [lockIfOld_of_old now1 e hl hold, lockIfOld_of_locked now2 _ rfl]
      | false =>
        rw [lockIfOld_of_recent now1 e hold]
        exact hfield now2 e

set_option maxRecDepth 100000 in
theorem lockIfOld_idempotent_witness :
    ((lockIfOld 691201000 dinner).expense.locked = true →
      lockIfOld 691201001 (lockIfOld 691201000 dinner).expense
        = ⟨(lockIfOld 691201000 dinner).expense, false⟩) ∧
    (dinner.locked = true → (lockIfOld 691201000 dinner).expense.locked = true) ∧
    (dinner.locked = true →
      (lockIfOld 691201001 (lockIfOld 691201000 dinner).expense).expense.locked = true) ∧
    ((lockIfOld 691201000 dinner).saved = false → (lockIfOld 691201000 dinner).expense = dinner) ∧
    (lockIfOld 691201000 dinner).expense
      = { dinner with locked := (lockIfOld 691201000 dinner).expense.locked,
                      updatedAt := (lockIfOld 691201000 dinner).expense.updatedAt } ∧
    (lockIfOld 691201001 (lockIfOld 691201000 dinner).expense).expense
      = { dinner with
          locked := (lockIfOld 691201001 (lockIfOld 691201000 dinner).expense).expense.locked,
          updatedAt :=
            (lockIfOld 691201001 (lockIfOld 691201000 dinner).expense).expense.updatedAt } :=
  lockIfOld_idempotent dinner 691201000 691201001 (by decide)

/-- C10 as stated fails: run on the dinner expense eight days after its
creation, `lockIfOld` saves, and the expense it leaves differs from the
original in `updatedAt` as well as in `locked`. -/
theorem lockIfOld_rewrites_updatedAt :
    (lockIfOld 691201000 dinner).saved = true ∧
    dinner.updatedAt = 1000 ∧
    (lockIfOld 691201000 dinner).expense.updatedAt = 691201000 ∧
    ¬ ((lockIfOld 691201000 dinner).expense
        = { dinner with locked := (lockIfOld 691201000 dinner).expense.locked }) := by
  refine ⟨by decide, rfl, by decide, ?_⟩
  intro h
  have h2 := congrArg Expense.updatedAt h
  revert h2
  decide

/-! ## The loop on finite balances -/

theorem Num.isFinite_iff (x : Num) :
    x.isFinite = true ↔ ∃ k : Int, x = Num.fin k ∧ k.natAbs ≤ maxFinite := by
  cases x with
  | fin k => simp [Num.isFinite]
  | inf s => simp [Num.isFinite]
  | nan => simp [Num.isFinite]

theorem creditorsOf_posFinite (b : Balances) (h : ∀ p ∈ b, p.2.isFinite = true) :
    AllPosFinite (creditorsOf b) := by
  induction b with
  | nil => intro p hp; simp [creditorsOf] at hp
  | cons q rest ih =>
    obtain ⟨u, a⟩ := q
    have hr := ih (fun p hp => h p (List.mem_cons_of_mem _ hp))
    obtain ⟨k, hk, hmax⟩ := (Num.isFinite_iff a).1 (h (u, a) (List.mem_cons_self _ _))
    subst hk
    by_cases hpos : 0 < k
    · have hlt : Num.lt Num.zero (Num.fin k) = true := by simp [Num.lt, Num.zero, hpos]
      intro p hp
      simp only [creditorsOf, hlt, if_true, List.mem_cons] at hp
      rcases hp with hp | hp
      · subst hp; exact ⟨k, rfl, hpos, hmax⟩
      · exact hr p hp
    · have hlt : Num.lt Num.zero (Num.fin k) = false := by simp [Num.lt, Num.zero, hpos]
      simpa [creditorsOf, hlt] using hr

theorem debtorsOf_posFinite (b : Balances) (h : ∀ p ∈ b, p.2.isFinite = true) :
    AllPosFinite (debtorsOf b) := by
  induction b with
  | nil => intro p hp; simp [debtorsOf] at hp
  | cons q rest ih =>
    obtain ⟨u, a⟩ := q
    have hr := ih (fun p hp => h p (List.mem_cons_of_mem _ hp))
    obtain ⟨k, hk, hmax⟩ := (Num.isFinite_iff a).1 (h (u, a) (List.mem_cons_self _ _))
    subst hk
    by_cases hpos : 0 < k
    · have hlt : Num.lt Num.zero (Num.fin k) = true := by simp [Num.lt, Num.zero, hpos]
      simpa [debtorsOf, hlt] using hr
    · have hlt : Num.lt Num.zero (Num.fin k) = false := by simp [Num.lt, Num.zero, hpos]
      by_cases hneg : k < 0
      · have hlt2 : Num.lt (Num.fin k) Num.zero = true := by simp [Num.lt, Num.zero, hneg]
        have hdef : debtorsOf ((u, Num.fin k) :: rest)
            = ⟨u, Num.neg (Num.fin k)⟩ :: debtorsOf rest := by
          simp [debtorsOf, hlt, hlt2]
        rw [hdef]
        intro p hp
        rcases List.mem_cons.1 hp with hp | hp
        · subst hp
          exact ⟨-k, rfl, by omega, by omega⟩
        · exact hr p hp
      · have hlt2 : Num.lt (Num.fin k) Num.zero = false := by simp [Num.lt, Num.zero, hneg]
        simpa [debtorsOf, hlt, hlt2] using hr

theorem length_creditors_add_debtors (b : Balances) (h : ∀ p ∈ b, p.2.isFinite = true) :
    (creditorsOf b).length + (debtorsOf b).length = nonZeroMembers b := by
  induction b with
  | nil => simp [creditorsOf, debtorsOf, nonZeroMembers]
  | cons q rest ih =>
    obtain ⟨u, a⟩ := q
    have hr := ih (fun p hp => h p (List.mem_cons_of_mem _ hp))
    obtain ⟨k, hk, _⟩ := (Num.isFinite_iff a).1 (h (u, a) (List.mem_cons_self _ _))
    subst hk
    simp only [nonZeroMembers, ne_eq] at hr
    by_cases hpos : 0 < k
    · have hlt : Num.lt Num.zero (Num.fin k) = true := by simp [Num.lt, Num.zero, hpos]
      have hne : ¬ Num.fin k = Num.zero := by simp [Num.zero]; omega
      simp only [creditorsOf, debtorsOf, hlt, if_true, nonZeroMembers, List.filter_cons,
        ne_eq, hne, not_false_eq_true, decide_True, List.length_cons]
      omega
    · have hlt : Num.lt Num.zero (Num.fin k) = false := by simp [Num.lt, Num.zero, hpos]
      by_cases hneg : k < 0
      · have hlt2 : Num.lt (Num.fin k) Num.zero = true := by simp [Num.lt, Num.zero, hneg]
        have hne : ¬ Num.fin k = Num.zero := by simp [Num.zero]; omega
        have hdef : debtorsOf ((u, Num.fin k) :: rest)
            = ⟨u, Num.neg (Num.fin k)⟩ :: debtorsOf rest := by
          simp [debtorsOf, hlt, hlt2]
        have hcdef : creditorsOf ((u, Num.fin k) :: rest) = creditorsOf rest := by
          simp [creditorsOf, hlt]
        rw [hdef, hcdef]
        simp only [nonZeroMembers, List.filter_cons, ne_eq, hne, not_false_eq_true,
          decide_True, if_true, List.length_cons]
        omega
      · have hlt2 : Num.lt (Num.fin k) Num.zero = false := by simp [Num.lt, Num.zero, hneg]
        have hz : k = 0 := by omega
        subst hz
        simpa [creditorsOf, debtorsOf, hlt, hlt2, nonZeroMembers, Num.zero] using hr

/-- The run of the greedy loop on a mapping of finite balances. -/
theorem greedy_run (b : Balances) (fuel : Nat) (hfinite : ∀ p ∈ b, p.2.isFinite = true)
    (hfuel : enoughFuel b ≤ fuel) :
    ∃ s', whileLoop fuel (initState b) = some s' ∧ loopStep s' = none ∧
      (debtorsOf b = [] ∨ creditorsOf b = [] → s'.settlements = []) ∧
      (debtorsOf b ≠ [] → creditorsOf b ≠ [] →
        s'.settlements.length + 1 ≤ (debtorsOf b).length + (creditorsOf b).length) ∧
      (∀ t ∈ s'.settlements, Num.lt Num.zero t.amount = true) := by
  obtain ⟨s', hrun, hstop, hstay, hcount, hpos⟩ := whileLoop_count fuel (initState b)
    (by simpa [initState] using debtorsOf_posFinite b hfinite)
    (by simpa [initState] using creditorsOf_posFinite b hfinite)
    (by simp only [initState, List.drop_zero]; unfold enoughFuel at hfuel; omega)
  simp only [initState, List.drop_zero, List.length_nil, Nat.zero_add] at hstay hcount
  refine ⟨s', hrun, hstop, hstay, hcount, ?_⟩
  intro t ht
  rcases hpos t ht with h | h
  · simp [initState] at h
  · exact h

theorem loopStep_advances (s s1 : LoopState) (h : loopStep s = some s1) :
    s.i ≤ s1.i ∧ s.j ≤ s1.j ∧
      ((∀ d, s.debtors[s.i]? = some d → d.amount.isFinite = true) →
        (∀ c, s.creditors[s.j]? = some c → c.amount.isFinite = true) →
        s.i + s.j < s1.i + s1.j) := by
  unfold loopStep at h
  split at h
  · rename_i hc
    injection h with h
    subst h
    simp only
    refine ⟨by split <;> omega, by split <;> omega, ?_⟩
    intro hd hcr
    obtain ⟨a, ha, _⟩ := (Num.isFinite_iff _).1
      (hd (s.debtors.get ⟨s.i, hc.1⟩) (by simp [List.getElem?_eq_getElem hc.1]))
    obtain ⟨b, hb, _⟩ := (Num.isFinite_iff _).1
      (hcr (s.creditors.get ⟨s.j, hc.2⟩) (by simp [List.getElem?_eq_getElem hc.2]))
    rw [ha, hb, Num.min_fin]
    rcases le_total a b with hle | hle
    · rw [min_eq_left hle, Num.sub_self_fin]
      simp only [Num.isZero, decide_True, if_true]
      split <;> omega
    · rw [min_eq_right hle, Num.sub_self_fin]
      simp only [Num.isZero, decide_True, if_true]
      split <;> omega
  · cases h

/-- Once both outstanding amounts are `NaN` the loop never ends. -/
theorem whileLoop_nan (fuel : Nat) (u w : UserId) (settlements : List Instruction) :
    whileLoop fuel ⟨[⟨u, Num.nan⟩], [⟨w, Num.nan⟩], 0, 0, settlements⟩ = none := by
  induction fuel generalizing settlements with
  | zero => rfl
  | succ n ih =>
    have hstep : loopStep ⟨[⟨u, Num.nan⟩], [⟨w, Num.nan⟩], 0, 0, settlements⟩
        = some ⟨[⟨u, Num.nan⟩], [⟨w, Num.nan⟩], 0, 0,
            settlements ++ [⟨u, w, Num.nan⟩]⟩ := rfl
    rw [whileLoop_of_some _ _ _ hstep]
    exact ih _

/-- An infinite debt facing an infinite credit: the loop never ends. -/
theorem whileLoop_infinite (fuel : Nat) (u w : UserId) :
    whileLoop fuel ⟨[⟨u, Num.inf false⟩], [⟨w, Num.inf false⟩], 0, 0, []⟩ = none := by
  cases fuel with
  | zero => rfl
  | succ n =>
    have hstep : loopStep ⟨[⟨u, Num.inf false⟩], [⟨w, Num.inf false⟩], 0, 0, []⟩
        = some ⟨[⟨u, Num.nan⟩], [⟨w, Num.nan⟩], 0, 0, [⟨u, w, Num.inf false⟩]⟩ := rfl
    rw [whileLoop_of_some _ _ _ hstep]
    exact whileLoop_nan n u w _

namespace Exact

/-- Termination of the loop from any state, with the iteration count. -/
theorem whileLoop_terminates_exact (fuel : Nat) (s : LoopState)
    (h : (s.debtors.drop s.i).length + (s.creditors.drop s.j).length ≤ fuel) :
    ∃ s', whileLoop fuel s = some s' ∧ loopStep s' = none ∧
      s'.settlements.length ≤ s.settlements.length
        + ((s.debtors.drop s.i).length + (s.creditors.drop s.j).length) := by
  induction fuel generalizing s with
  | zero =>
    have h1 : s.debtors.drop s.i = [] := List.length_eq_zero.1 (by omega)
    have hn := loopStep_nil_exact s (Or.inl h1)
    exact ⟨s, whileLoop_of_none_exact _ _ hn, hn, by omega⟩
  | succ n ih =>
    rcases hD : s.debtors.drop s.i with _ | ⟨d, ds⟩
    · have hn := loopStep_nil_exact s (Or.inl hD)
      exact ⟨s, whileLoop_of_none_exact _ _ hn, hn, by omega⟩
    · rcases hC : s.creditors.drop s.j with _ | ⟨c, cs⟩
      · have hn := loopStep_nil_exact s (Or.inr hC)
        exact ⟨s, whileLoop_of_none_exact _ _ hn, hn, by omega⟩
      · obtain ⟨s1, hstep, hset, hd1, hc1⟩ := loopStep_cons_exact s d c ds cs hD hC
        rw [hD, hC] at h
        simp only [List.length_cons] at h ⊢
        have hlen : (s1.debtors.drop s1.i).length + (s1.creditors.drop s1.j).length
            ≤ ds.length + cs.length + 1 := by
          rw [hd1, hc1]
          rcases le_total d.amount c.amount with hle | hle
          · rw [min_eq_left hle, afterPay_length_eq_exact]
            have := afterPay_length_le_exact c d.amount cs
            omega
          · rw [min_eq_right hle, afterPay_length_eq_exact]
            have := afterPay_length_le_exact d c.amount ds
            omega
        obtain ⟨s2, hrun, hstop, hcount⟩ := ih s1 (by omega)
        refine ⟨s2, by rw [whileLoop_of_some_exact _ _ _ hstep]; exact hrun, hstop, ?_⟩
        rw [hset] at hcount
        simp only [List.length_append, List.length_singleton] at hcount
        omega

end Exact

/-! ## Properties of the balance calculator and of the debt optimizer -/

theorem ofInts_nil : Balances.ofInts [] = [] := rfl

/-- C2 (amended): when every amount and split amount of the group's expenses
is an integer, the magnitudes of all of them add up to less than `2^53`, and
every expense has split amounts summing to its amount, `getGroupBalances`
answers 200 with integer balances whose sum is exactly zero, in exact
arithmetic and added up as JavaScript numbers alike. -/
theorem getGroupBalances_sum_zero (st : Store) (groupId : Nat)
    (hamount : ∀ e ∈ groupExpenses st groupId, e.amount = Num.ofInt e.amount.toInt)
    (hsplits : ∀ e ∈ groupExpenses st groupId, ∀ s ∈ e.splits,
      s.amount = Num.ofInt s.amount.toInt)
    (hbound : volume (groupExpenses st groupId) < 2 ^ 53)
    (hsum : ∀ e ∈ groupExpenses st groupId,
      (e.splits.map (fun s => s.amount.toInt)).sum = e.amount.toInt) :
    ∃ n : Exact.Balances,
      getGroupBalances st groupId = (⟨200, Body.balances (Balances.ofInts n)⟩, st) ∧
      n.total = 0 ∧ (Balances.ofInts n).total = Num.zero := by
  obtain ⟨h1, h2⟩ := foldl_applyExpense_ofInts (groupExpenses st groupId) [] hamount hsplits
    (by simpa [Exact.Balances.mass] using hbound)
  have hmass : (Exact.computeBalances (groupExpenses st groupId)).mass < 2 ^ 53 := by
    unfold Exact.computeBalances
    simp only [Exact.Balances.mass, List.map_nil, List.sum_nil, Nat.zero_add] at h2
    simp only [Exact.Balances.mass]
    omega
  have htotal : (Exact.computeBalances (groupExpenses st groupId)).total = 0 := by
    unfold Exact.computeBalances
    rw [Exact.total_foldl_applyExpense_exact _ _ hsum]
    rfl
  refine ⟨Exact.computeBalances (groupExpenses st groupId), ?_, htotal, ?_⟩
  · unfold getGroupBalances computeBalances Exact.computeBalances
    rw [← ofInts_nil, h1]
  · rw [total_ofInts _ hmass, htotal, Num.zero_eq_ofInt]

set_option maxRecDepth 100000 in
theorem getGroupBalances_sum_zero_witness :
    ∃ n : Exact.Balances,
      getGroupBalances dinnerStore 7 = (⟨200, Body.balances (Balances.ofInts n)⟩, dinnerStore) ∧
      n.total = 0 ∧ (Balances.ofInts n).total = Num.zero :=
  getGroupBalances_sum_zero dinnerStore 7 (by decide) (by decide) (by decide) (by decide)

set_option maxRecDepth 100000 in
/-- C2 as stated fails on large amounts: both expenses of the store have a
single split equal to the amount, all amounts are integers that binary64
holds, and the balances answered are `2^53`, `-2^53` and `-1`, whose sum is
`-1` in exact arithmetic and added up as JavaScript numbers. -/
theorem large_amounts_break_zero_sum :
    (∀ e ∈ groupExpenses largeStore 7,
      e.amount.isDouble = true ∧ (∀ s ∈ e.splits, s.amount.isDouble = true) ∧
      (e.splits.map (fun s => s.amount.toInt)).sum = e.amount.toInt ∧
      e.splits.foldl (fun acc s => Num.add acc s.amount) Num.zero = e.amount) ∧
    getGroupBalances largeStore 7
      = (⟨200, Body.balances (Balances.ofInts [(1, 2 ^ 53), (2, -(2 ^ 53)), (3, -1)])⟩,
          largeStore) ∧
    Exact.Balances.total [(1, 2 ^ 53), (2, -(2 ^ 53)), (3, -1)] = -1 ∧
    (Balances.ofInts [(1, 2 ^ 53), (2, -(2 ^ 53)), (3, -1)]).total = Num.ofInt (-1) ∧
    Num.ofInt (-1) ≠ Num.zero := by
  refine ⟨by decide, by decide, by decide, by decide, by decide⟩

/-- C1 (amended): for a mapping with distinct members whose balances are
integers of magnitude below `2^53` that sum to zero, the greedy loop of
`optimizeDebts` returns a plan of integer amounts; applying every instruction
of the plan, in exact arithmetic, leaves every member of the mapping at
exactly zero, every debtor pays in total what it owed and every creditor
receives in total what it was owed. -/
theorem greedySettle_zeroes_balances (n : Exact.Balances) (fuel : Nat)
    (hdistinct : n.users.Nodup) (hsafe : ∀ p ∈ n, p.2.natAbs < 2 ^ 53)
    (hzero : n.total = 0) (hfuel : enoughFuel (Balances.ofInts n) ≤ fuel) :
    ∃ plan : List Exact.Instruction,
      greedySettle fuel (Balances.ofInts n) = some (plan.map Instruction.ofExact) ∧
      (∀ p ∈ Exact.applyPlan n plan, p.2 = 0) ∧
      (∀ p ∈ n, p.2 < 0 → Exact.paidBy p.1 plan = -p.2) ∧
      (∀ p ∈ n, 0 < p.2 → Exact.receivedBy p.1 plan = p.2) := by
  have hfuelE : (Exact.creditorsOf n).length + (Exact.debtorsOf n).length ≤ fuel := by
    unfold enoughFuel at hfuel
    rw [creditorsOf_ofInts, debtorsOf_ofInts, List.length_map, List.length_map] at hfuel
    exact hfuel
  have hsum : Exact.sumOutstanding ((Exact.initState n).debtors.drop (Exact.initState n).i)
      = Exact.sumOutstanding
          ((Exact.initState n).creditors.drop (Exact.initState n).j) := by
    have := Exact.sum_creditors_sub_debtors_exact n
    simp only [Exact.initState, List.drop_zero]
    omega
  obtain ⟨sE, hrunE, hpaid, hrecv, _, _⟩ := Exact.whileLoop_balanced_exact fuel
    (Exact.initState n)
    (by simpa [Exact.initState] using Exact.debtorsOf_positive_exact n)
    (by simpa [Exact.initState] using Exact.creditorsOf_positive_exact n) hsum
    (by simp only [Exact.initState, List.drop_zero]; omega)
  obtain ⟨s', hrun, hset⟩ := whileLoop_sim fuel (Exact.initState n)
    (initState (Balances.ofInts n)) rfl
    (by simp [initState, Exact.initState, debtorsOf_ofInts])
    (by simp [initState, Exact.initState, creditorsOf_ofInts])
    (by simpa [Exact.initState] using Exact.debtorsOf_positive_exact n)
    (by simpa [Exact.initState] using Exact.creditorsOf_positive_exact n)
    (by simpa [Exact.initState] using Exact.debtorsOf_safe n hsafe)
    (by simpa [Exact.initState] using Exact.creditorsOf_safe n hsafe)
    sE hrunE
  have hp : ∀ u, Exact.paidBy u sE.settlements
      = if Exact.Balances.get n u < 0 then -Exact.Balances.get n u else 0 := by
    intro u
    rw [hpaid u, ← Exact.owed_debtorsOf_exact u n hdistinct]
    simp [Exact.initState, Exact.paidBy]
  have hr : ∀ u, Exact.receivedBy u sE.settlements
      = if 0 < Exact.Balances.get n u then Exact.Balances.get n u else 0 := by
    intro u
    rw [hrecv u, ← Exact.owed_creditorsOf_exact u n hdistinct]
    simp [Exact.initState, Exact.receivedBy]
  refine ⟨sE.settlements, by simp [greedySettle, hrun, hset], ?_, ?_, ?_⟩
  · rintro ⟨k, v⟩ hmem
    have hget := Exact.Balances.get_of_mem_exact _
      (Exact.nodup_applyPlan_exact sE.settlements n hdistinct) k v hmem
    rw [Exact.get_applyPlan_exact, hp k, hr k] at hget
    show v = 0
    split_ifs at hget <;> omega
  · rintro ⟨k, v⟩ hmem hneg
    have hget := Exact.Balances.get_of_mem_exact n hdistinct k v hmem
    simp only at hneg ⊢
    rw [hp k, hget, if_pos hneg]
  · rintro ⟨k, v⟩ hmem hpos
    have hget := Exact.Balances.get_of_mem_exact n hdistinct k v hmem
    simp only at hpos ⊢
    rw [hr k, hget, if_pos hpos]

set_option maxRecDepth 100000 in
theorem greedySettle_zeroes_balances_witness :
    ∃ plan : List Exact.Instruction,
      greedySettle 3 (Balances.ofInts [(1, 6000), (2, -3000), (3, -3000)])
        = some (plan.map Instruction.ofExact) ∧
      (∀ p ∈ Exact.applyPlan [(1, 6000), (2, -3000), (3, -3000)] plan, p.2 = 0) ∧
      (∀ p ∈ ([(1, 6000), (2, -3000), (3, -3000)] : Exact.Balances), p.2 < 0 →
        Exact.paidBy p.1 plan = -p.2) ∧
      (∀ p ∈ ([(1, 6000), (2, -3000), (3, -3000)] : Exact.Balances), 0 < p.2 →
        Exact.receivedBy p.1 plan = p.2) :=
  greedySettle_zeroes_balances [(1, 6000), (2, -3000), (3, -3000)] 3
    (by decide) (by decide) (by decide) (by decide)

set_option maxRecDepth 100000 in
/-- C1 as stated fails on large integers: the members of `wideBalances` are
distinct, its balances are integers that binary64 holds and they sum to zero
(exactly, and added up as JavaScript numbers), yet the plan makes user 4 pay
`2^53 - 1` of the `2^53` owed, and applying it leaves user 4 at `-1`, in exact
arithmetic and in JavaScript arithmetic alike. -/
theorem wide_balances_left_owing :
    wideBalances.users.Nodup ∧
    (∀ p ∈ Balances.ofInts wideBalances, p.2.isDouble = true) ∧
    wideBalances.total = 0 ∧
    (Balances.ofInts wideBalances).total = Num.zero ∧
    greedySettle 4 (Balances.ofInts wideBalances)
      = some (([⟨2, 1, 1⟩, ⟨3, 1, 1⟩, ⟨4, 1, 2 ^ 53 - 1⟩] : List Exact.Instruction).map
          Instruction.ofExact) ∧
    Exact.applyPlan wideBalances [⟨2, 1, 1⟩, ⟨3, 1, 1⟩, ⟨4, 1, 2 ^ 53 - 1⟩]
      = [(2, 0), (3, 0), (1, 1), (4, -1)] ∧
    applyPlan (Balances.ofInts wideBalances)
        (([⟨2, 1, 1⟩, ⟨3, 1, 1⟩, ⟨4, 1, 2 ^ 53 - 1⟩] : List Exact.Instruction).map
          Instruction.ofExact)
      = Balances.ofInts [(2, 0), (3, 0), (1, 0), (4, -1)] ∧
    Exact.paidBy 4 [⟨2, 1, 1⟩, ⟨3, 1, 1⟩, ⟨4, 1, 2 ^ 53 - 1⟩] ≠ 2 ^ 53 := by
  refine ⟨by decide, by decide, by decide, by decide, by decide, by decide, by decide,
    by decide⟩

/-- C4 (amended): for a mapping of finite balances the greedy loop returns a
plan; when no member has a non-zero balance the plan is empty, and when at
least one has, the number of instructions is at most the number of members
with a non-zero balance (creditors plus debtors) minus one. -/
theorem greedySettle_length (b : Balances) (fuel : Nat)
    (hfinite : ∀ p ∈ b, p.2.isFinite = true) (hfuel : enoughFuel b ≤ fuel) :
    ∃ plan, greedySettle fuel b = some plan ∧
      nonZeroMembers b = (creditorsOf b).length + (debtorsOf b).length ∧
      (nonZeroMembers b = 0 → plan = []) ∧
      (0 < nonZeroMembers b → plan.length + 1 ≤ nonZeroMembers b) := by
  obtain ⟨s', hrun, _, hstay, hcount, _⟩ := greedy_run b fuel hfinite hfuel
  have hlen := length_creditors_add_debtors b hfinite
  refine ⟨s'.settlements, by simp [greedySettle, hrun], hlen.symm, ?_, ?_⟩
  · intro h0
    exact hstay (Or.inl (List.length_eq_zero.1 (by omega)))
  · intro hpos
    by_cases hd : debtorsOf b = []
    · rw [hstay (Or.inl hd)]
      simp only [List.length_nil]
      omega
    · by_cases hc : creditorsOf b = []
      · rw [hstay (Or.inr hc)]
        simp only [List.length_nil]
        omega
      · have := hcount hd hc
        omega

set_option maxRecDepth 100000 in
theorem greedySettle_length_witness :
    ∃ plan, greedySettle 3 (Balances.ofInts [(1, 6000), (2, -3000), (3, -3000)]) = some plan ∧
      nonZeroMembers (Balances.ofInts [(1, 6000), (2, -3000), (3, -3000)])
        = (creditorsOf (Balances.ofInts [(1, 6000), (2, -3000), (3, -3000)])).length
          + (debtorsOf (Balances.ofInts [(1, 6000), (2, -3000), (3, -3000)])).length ∧
      (nonZeroMembers (Balances.ofInts [(1, 6000), (2, -3000), (3, -3000)]) = 0 →
        plan = []) ∧
      (0 < nonZeroMembers (Balances.ofInts [(1, 6000), (2, -3000), (3, -3000)]) →
        plan.length + 1
          ≤ nonZeroMembers (Balances.ofInts [(1, 6000), (2, -3000), (3, -3000)])) :=
  greedySettle_length (Balances.ofInts [(1, 6000), (2, -3000), (3, -3000)]) 3
    (by decide) (by decide)

/-- C4 as stated fails on the empty mapping: its balances sum to zero, the
plan has 0 instructions, and 0 is not at most 0 - 1. -/
theorem empty_mapping_plan_length :
    Balances.total [] = Num.zero ∧
    ∃ plan, greedySettle (enoughFuel []) [] = some plan ∧
      ¬ ((plan.length : Int) ≤ (nonZeroMembers [] : Int) - 1) :=
  ⟨by decide, [], by decide, by decide⟩

/-- C8 (amended): the greedy loop terminates for every mapping of finite
balances, zero-sum or not. No iteration moves a pointer backward, and an
iteration whose two outstanding amounts are finite moves at least one pointer
forward; within `#creditors + #debtors` iterations the loop condition is
false, and every amount paid is strictly positive. -/
theorem greedy_loop_terminates (b : Balances) (fuel : Nat)
    (hfinite : ∀ p ∈ b, p.2.isFinite = true) (hfuel : enoughFuel b ≤ fuel) :
    (∀ s s1, loopStep s = some s1 → s.i ≤ s1.i ∧ s.j ≤ s1.j ∧
      ((∀ d, s.debtors[s.i]? = some d → d.amount.isFinite = true) →
        (∀ c, s.creditors[s.j]? = some c → c.amount.isFinite = true) →
        s.i + s.j < s1.i + s1.j)) ∧
    ∃ s', whileLoop fuel (initState b) = some s' ∧ loopStep s' = none ∧
      s'.settlements.length ≤ (creditorsOf b).length + (debtorsOf b).length ∧
      ∀ t ∈ s'.settlements, Num.lt Num.zero t.amount = true := by
  refine ⟨loopStep_advances, ?_⟩
  obtain ⟨s', hrun, hstop, hstay, hcount, hpos⟩ := greedy_run b fuel hfinite hfuel
  refine ⟨s', hrun, hstop, ?_, hpos⟩
  by_cases hd : debtorsOf b = []
  · rw [hstay (Or.inl hd)]; simp
  · by_cases hc : creditorsOf b = []
    · rw [hstay (Or.inr hc)]; simp
    · have := hcount hd hc
      omega

set_option maxRecDepth 100000 in
theorem greedy_loop_terminates_witness :
    (∀ s s1, loopStep s = some s1 → s.i ≤ s1.i ∧ s.j ≤ s1.j ∧
      ((∀ d, s.debtors[s.i]? = some d → d.amount.isFinite = true) →
        (∀ c, s.creditors[s.j]? = some c → c.amount.isFinite = true) →
        s.i + s.j < s1.i + s1.j)) ∧
    ∃ s', whileLoop 3 (initState (Balances.ofInts [(1, 6000), (2, -3000), (3, -2000)]))
        = some s' ∧
      loopStep s' = none ∧
      s'.settlements.length
        ≤ (creditorsOf (Balances.ofInts [(1, 6000), (2, -3000), (3, -2000)])).length
          + (debtorsOf (Balances.ofInts [(1, 6000), (2, -3000), (3, -2000)])).length ∧
      ∀ t ∈ s'.settlements, Num.lt Num.zero t.amount = true :=
  greedy_loop_terminates (Balances.ofInts [(1, 6000), (2, -3000), (3, -2000)]) 3
    (by decide) (by decide)

set_option maxRecDepth 100000 in
/-- C8 as stated fails when the balances overflow: the two expenses of the
store are of `Number.MAX_VALUE`, a value binary64 holds; their sum is
`Infinity`, so the balances are `Infinity` and `-Infinity`, the first
iteration leaves `NaN` on both sides, no pointer moves, and neither the loop
nor `optimizeDebts` ends, whatever number of iterations is allowed. -/
theorem infinite_balances_never_settle :
    (∀ e ∈ groupExpenses overflowStore 7,
      e.amount.isDouble = true ∧ e.amount.isFinite = true) ∧
    computeBalances (groupExpenses overflowStore 7)
      = [(1, Num.inf false), (2, Num.inf true)] ∧
    (∀ fuel, whileLoop fuel (initState [(1, Num.inf false), (2, Num.inf true)]) = none) ∧
    (∀ fuel, optimizeDebts fuel overflowStore 7 = none) := by
  have hb : computeBalances (groupExpenses overflowStore 7)
      = [(1, Num.inf false), (2, Num.inf true)] := by decide
  have hloop : ∀ fuel,
      whileLoop fuel (initState [(1, Num.inf false), (2, Num.inf true)]) = none :=
    fun fuel => whileLoop_infinite fuel 2 1
  refine ⟨by decide, hb, hloop, ?_⟩
  intro fuel
  simp only [optimizeDebts, greedySettle, hb, hloop fuel, Option.map_none']

/-! ## The budget check of `addExpense` -/

/-- C5 (amended): for a group with a configured (non-zero) integer
`budgetLimit` and a request with all required fields, when the new amount and
the amounts of the group's expenses created in the current calendar month are
integers whose magnitudes add up to less than `2^53`, `addExpense` answers 201
with the group's limit, `total` equal to the sum of the month's amounts plus
the new amount, and `overLimit` true exactly when `total > budgetLimit`; a
total equal to the limit gives false and a total one minor unit above it gives
true. -/
theorem addExpense_budget (monthStart monthEnd : Nat → Nat) (now newId : Nat)
    (user : UserId) (file : Option String) (st : Store)
    (groupId : Nat) (payer : UserId) (amount : Int) (category : String)
    (description : Option String) (splitType : SplitType) (splits : List Split)
    (g : Group) (limit : Int)
    (hgroup : st.findGroup groupId = some g)
    (hlimit : g.budgetLimit = some (Num.ofInt limit))
    (hconfigured : limit ≠ 0) (hamount : amount ≠ 0) (hcategory : category ≠ "")
    (hint : ∀ e ∈ monthExpenses st groupId (monthStart now) (monthEnd now),
      e.amount = Num.ofInt e.amount.toInt)
    (hbound : ((monthExpenses st groupId (monthStart now) (monthEnd now)).map
      (fun e => e.amount.toInt.natAbs)).sum + amount.natAbs < 2 ^ 53) :
    ∃ expense overLimit total,
      (addExpense monthStart monthEnd now newId user file st
        ⟨some groupId, some payer, some (Num.ofInt amount), some category, description,
          some splitType, splits⟩).1
        = ⟨201, Body.expenseAdded expense overLimit (Num.ofInt total)
            (some (Num.ofInt limit))⟩ ∧
      total = ((monthExpenses st groupId (monthStart now) (monthEnd now)).map
        (fun e => e.amount.toInt)).sum + amount ∧
      (overLimit = true ↔ total > limit) ∧
      (total = limit → overLimit = false) ∧
      (total = limit + 1 → overLimit = true) := by
  have hsum : sumAmounts (monthExpenses st groupId (monthStart now) (monthEnd now))
      = Num.ofInt ((monthExpenses st groupId (monthStart now) (monthEnd now)).map
          (fun e => e.amount.toInt)).sum := by
    have := foldl_amounts_ofInts _ 0 hint (by simp only [Int.natAbs_zero]; omega)
    rw [zero_add] at this
    unfold sumAmounts
    rw [Num.zero_eq_ofInt]
    exact this
  have hnat : ∀ l : List Expense,
      Int.natAbs ((l.map (fun e : Expense => e.amount.toInt)).sum)
        ≤ (l.map (fun e : Expense => e.amount.toInt.natAbs)).sum := by
    intro l
    induction l with
    | nil => simp
    | cons e rest ih =>
      simp only [List.map_cons, List.sum_cons]
      omega
  have htotal : Num.add
      (sumAmounts (monthExpenses st groupId (monthStart now) (monthEnd now)))
      (Num.ofInt amount)
      = Num.ofInt (((monthExpenses st groupId (monthStart now) (monthEnd now)).map
          (fun e => e.amount.toInt)).sum + amount) := by
    rw [hsum]
    apply Num.add_ofInt
    have := hnat (monthExpenses st groupId (monthStart now) (monthEnd now))
    omega
  refine ⟨Expense.mk newId groupId payer (Num.ofInt amount) category description splitType
      splits file user [] false now now,
    decide (limit < ((monthExpenses st groupId (monthStart now) (monthEnd now)).map
      (fun e => e.amount.toInt)).sum + amount),
    ((monthExpenses st groupId (monthStart now) (monthEnd now)).map
      (fun e => e.amount.toInt)).sum + amount,
    ?_, rfl, ?_, ?_, ?_⟩
  · have ht1 : (Num.ofInt amount).truthy = true := by
      rw [Num.truthy_ofInt]; simpa using hamount
    have ht2 : (Num.ofInt limit).truthy = true := by
      rw [Num.truthy_ofInt]; simpa using hconfigured
    simp [addExpense, ht1, hcategory, hgroup, hlimit, ht2, htotal, Num.lt_ofInt]
  · simp
  · intro h
    simp [h]
  · intro h
    simp [h]

set_option maxRecDepth 100000 in
theorem addExpense_budget_witness :
    ∃ expense overLimit total,
      (addExpense januaryStart januaryEnd 2000 101 2 none budgetStore
        ⟨some 7, some 2, some (Num.ofInt 1500), some "taxi", none, some SplitType.exact,
          [⟨2, Num.ofInt 1500⟩]⟩).1
        = ⟨201, Body.expenseAdded expense overLimit (Num.ofInt total)
            (some (Num.ofInt 10000))⟩ ∧
      total = ((monthExpenses budgetStore 7 (januaryStart 2000) (januaryEnd 2000)).map
        (fun e => e.amount.toInt)).sum + 1500 ∧
      (overLimit = true ↔ total > 10000) ∧
      (total = 10000 → overLimit = false) ∧
      (total = 10000 + 1 → overLimit = true) :=
  addExpense_budget januaryStart januaryEnd 2000 101 2 none budgetStore 7 2 1500 "taxi" none
    SplitType.exact [⟨2, Num.ofInt 1500⟩] ⟨7, some (Num.ofInt 10000)⟩ 10000 rfl rfl
    (by decide) (by decide) (by decide) (by decide) (by decide)

set_option maxRecDepth 100000 in
/-- Scenario A evaluated: limit 100.00, month sum 90.00, new amount 15.00, in
minor units. -/
theorem addExpense_scenarioA :
    ∃ expense,
      (addExpense januaryStart januaryEnd 2000 101 2 none budgetStore
        ⟨some 7, some 2, some (Num.ofInt 1500), some "taxi", none, some SplitType.exact,
          [⟨2, Num.ofInt 1500⟩]⟩).1
        = ⟨201, Body.expenseAdded expense true (Num.ofInt 10500)
            (some (Num.ofInt 10000))⟩ :=
  ⟨_, rfl⟩

set_option maxRecDepth 100000 in
/-- C5 as stated fails on large amounts: the limit is `2^53`, the month's
only expense is `2^53` and the new amount is 1, all values binary64 holds; the
sum of the month's amounts plus the new amount is one above the limit, yet the
answer reports `total = 2^53` and `overLimit = false`. -/
theorem large_total_not_over_limit :
    (∀ e ∈ monthExpenses largeBudgetStore 7 (januaryStart 2000) (januaryEnd 2000),
      e.amount.isDouble = true) ∧
    (Num.ofInt 1).isDouble = true ∧ (Num.ofInt (2 ^ 53)).isDouble = true ∧
    ((monthExpenses largeBudgetStore 7 (januaryStart 2000) (januaryEnd 2000)).map
      (fun e => e.amount.toInt)).sum + 1 = 2 ^ 53 + 1 ∧
    ∃ expense,
      (addExpense januaryStart januaryEnd 2000 102 2 none largeBudgetStore
        ⟨some 7, some 2, some (Num.ofInt 1), some "taxi", none, some SplitType.exact,
          [⟨2, Num.ofInt 1⟩]⟩).1
        = ⟨201, Body.expenseAdded expense false (Num.ofInt (2 ^ 53))
            (some (Num.ofInt (2 ^ 53)))⟩ ∧
      Num.ofInt (2 ^ 53) ≠ Num.ofInt (2 ^ 53 + 1) :=
  ⟨by decide, by decide, by decide, by decide, _, rfl, by decide⟩

set_option maxRecDepth 100000 in
/-- Amounts in major units drift as well: with the limit 0.3, a month expense
of 0.1 and a new amount of 0.2, all values binary64 holds, `addExpense`
reports the total `5404319552844596 * 2^-54` (printed 0.30000000000000004),
which is above the limit, and `overLimit = true`. -/
theorem decimal_total_over_limit :
    tenth.isDouble = true ∧ fifth.isDouble = true ∧ threeTenths.isDouble = true ∧
    Num.add tenth fifth = Num.fin ((5404319552844596 <<< 1020 : Nat) : Int) ∧
    Num.lt threeTenths (Num.add tenth fifth) = true ∧
    ∃ expense,
      (addExpense januaryStart januaryEnd 2000 102 2 none decimalBudgetStore
        ⟨some 7, some 2, some fifth, some "taxi", none, some SplitType.exact,
          [⟨2, fifth⟩]⟩).1
        = ⟨201, Body.expenseAdded expense true
            (Num.fin ((5404319552844596 <<< 1020 : Nat) : Int)) (some threeTenths)⟩ :=
  ⟨by decide, by decide, by decide, by decide, by decide, _, rfl⟩

/-! ## Which operations lock aged expenses -/

theorem lockIfOld_saved_locked (now : Nat) (e : Expense)
    (h : (lockIfOld now e).saved = true) : (lockIfOld now e).expense.locked = true := by
  unfold lockIfOld at h ⊢
  split
  · rfl
  · rename_i hc
    simp [hc] at h

theorem lockIfOld_id (now : Nat) (e : Expense) : (lockIfOld now e).expense.id = e.id := by
  unfold lockIfOld
  split <;> rfl

theorem foldl_commit_expenses (results : List LockResult) (st : Store)
    (hres : ∀ r ∈ results, r.saved = true → r.expense.locked = true) :
    ∀ x ∈ (results.foldl Store.commit st).expenses,
      x.locked = true ∨
        (x ∈ st.expenses ∧ ∀ r ∈ results, r.saved = true → r.expense.id ≠ x.id) := by
  induction results generalizing st with
  | nil => intro x hx; exact Or.inr ⟨hx, fun r hr => by cases hr⟩
  | cons r rest ih =>
    intro x hx
    simp only [List.foldl_cons] at hx
    rcases ih (st.commit r) (fun r' hr' => hres r' (List.mem_cons_of_mem _ hr')) x hx
      with hlocked | ⟨hmem, hrest⟩
    · exact Or.inl hlocked
    · by_cases hs : r.saved = true
      · simp only [Store.commit, hs, if_true, Store.saveExpense, List.mem_map] at hmem
        obtain ⟨y, hy, hxy⟩ := hmem
        by_cases hid : y.id = r.expense.id
        · rw [if_pos hid] at hxy
          subst hxy
          exact Or.inl (hres _ (List.mem_cons_self _ _) hs)
        · rw [if_neg hid] at hxy
          subst hxy
          refine Or.inr ⟨hy, ?_⟩
          intro r' hr' hs'
          rcases List.mem_cons.1 hr' with h | h
          · subst h; exact fun e => hid e.symm
          · exact hrest r' h hs'
      · have hst : st.commit r = st := by simp [Store.commit, hs]
        rw [hst] at hmem
        refine Or.inr ⟨hmem, ?_⟩
        intro r' hr' hs'
        rcases List.mem_cons.1 hr' with h | h
        · subst h; exact absurd hs' hs
        · exact hrest r' h hs'

theorem getExpenses_locks (now : Nat) (st : Store) (groupId : Nat) (q : ExpenseQuery)
    (x : Expense) (hx : x ∈ (getExpenses now st groupId q).2.expenses)
    (hmatch : matchesFilter groupId q x = true)
    (hold : olderThanSevenDays now x.createdAt = true) : x.locked = true := by
  have hres : ∀ r ∈ (st.expenses.filter (matchesFilter groupId q)).map (lockIfOld now),
      r.saved = true → r.expense.locked = true := by
    intro r hr hs
    obtain ⟨y, _, rfl⟩ := List.mem_map.1 hr
    exact lockIfOld_saved_locked now y hs
  rcases foldl_commit_expenses _ st hres x hx with h | ⟨hmem, hnone⟩
  · exact h
  · cases hl : x.locked with
    | true => rfl
    | false =>
      exfalso
      have hin : lockIfOld now x
          ∈ (st.expenses.filter (matchesFilter groupId q)).map (lockIfOld now) :=
        List.mem_map.2 ⟨x, List.mem_filter.2 ⟨hmem, hmatch⟩, rfl⟩
      have hsaved : (lockIfOld now x).saved = true := by
        rw [lockIfOld_of_old now x hl hold]
      exact hnone _ hin hsaved (lockIfOld_id now x)

theorem optimizeDebts_returns (st : Store) (groupId fuel : Nat)
    (hfinite : ∀ p ∈ computeBalances (groupExpenses st groupId), p.2.isFinite = true)
    (hfuel : enoughFuel (computeBalances (groupExpenses st groupId)) ≤ fuel) :
    ∃ plan, greedySettle fuel (computeBalances (groupExpenses st groupId)) = some plan ∧
      optimizeDebts fuel st groupId = some (⟨200, Body.settlements plan⟩, st) := by
  obtain ⟨s', hrun, _⟩ := greedy_run _ fuel hfinite hfuel
  exact ⟨s'.settlements, by simp [greedySettle, hrun],
    by simp [optimizeDebts, greedySettle, hrun]⟩

theorem optimizeDebts_answer (st : Store) (groupId fuel : Nat) (r : Response × Store)
    (h : optimizeDebts fuel st groupId = some r) :
    ∃ plan, r = (⟨200, Body.settlements plan⟩, st) := by
  unfold optimizeDebts at h
  cases hg : greedySettle fuel (computeBalances (groupExpenses st groupId)) with
  | none => rw [hg] at h; cases h
  | some plan =>
    rw [hg] at h
    injection h with h
    exact ⟨plan, h.symm⟩

/-- C7 (amended): an aged unlocked expense is locked in the store by the read
path, for every expense the query's filter selects, and by the comment path,
for the commented expense; `getGroupBalances` and `optimizeDebts` never write
to the store: the first returns it unchanged, the second returns it unchanged
whenever it returns, which it does when the computed balances are finite. -/
theorem lock_on_read_and_comment_only (now : Nat) (st : Store) (groupId : Nat)
    (q : ExpenseQuery) (user : UserId) (id : Nat) (text emoji : Option String) :
    (∀ x ∈ (getExpenses now st groupId q).2.expenses, matchesFilter groupId q x = true →
      7 * msPerDay < (now : Int) - (x.createdAt : Int) → x.locked = true) ∧
    (∀ e, st.findExpense id = some e → truthyStr text = true ∨ truthyStr emoji = true →
      7 * msPerDay < (now : Int) - (e.createdAt : Int) →
      ∃ stored, (addComment now user st id text emoji).2.findExpense id = some stored ∧
        stored.locked = true) ∧
    (getGroupBalances st groupId).2 = st ∧
    (∀ fuel r, optimizeDebts fuel st groupId = some r → r.2 = st) ∧
    (∀ fuel, (∀ p ∈ computeBalances (groupExpenses st groupId), p.2.isFinite = true) →
      enoughFuel (computeBalances (groupExpenses st groupId)) ≤ fuel →
      ∃ r, optimizeDebts fuel st groupId = some r ∧ r.2 = st) := by
  refine ⟨?_, ?_, rfl, ?_, ?_⟩
  · intro x hx hmatch hage
    exact getExpenses_locks now st groupId q x hx hmatch
      (by simpa [olderThanSevenDays] using hage)
  · intro e hfind hbody hage
    have hold : olderThanSevenDays now e.createdAt = true := by
      simpa [olderThanSevenDays] using hage
    have hid := findExpense_id st id e hfind
    cases hl : e.locked with
    | true =>
      rw [addComment_locked now user st id text emoji e hfind hbody hl]
      exact ⟨e, hfind, hl⟩
    | false =>
      rw [addComment_aged now user st id text emoji e hfind hbody hl hold]
      exact ⟨_, findExpense_saveExpense st id e _ hfind hid, rfl⟩
  · intro fuel r h
    obtain ⟨plan, hr⟩ := optimizeDebts_answer st groupId fuel r h
    rw [hr]
  · intro fuel hfinite hfuel
    obtain ⟨plan, _, h⟩ := optimizeDebts_returns st groupId fuel hfinite hfuel
    exact ⟨_, h, rfl⟩

set_option maxRecDepth 100000 in
/-- C7 as stated fails. The dinner and the taxi expense of group 7 are more
than seven days old at the time of the calls. After `getGroupBalances` and
after `optimizeDebts` the dinner is still stored unlocked; after
`getExpenses` with a filter on the category `food` the taxi expense, which
the filter does not select, is still stored unlocked; and after `addComment`
on the dinner the taxi expense is still stored unlocked. -/
theorem balance_paths_do_not_lock :
    ¬ (∀ x ∈ (getGroupBalances dinnerStore 7).2.expenses, x.group = 7 →
        7 * msPerDay < ((691201000 : Nat) : Int) - (x.createdAt : Int) → x.locked = true) ∧
    ¬ (∀ r, optimizeDebts 3 dinnerStore 7 = some r → ∀ x ∈ r.2.expenses, x.group = 7 →
        7 * msPerDay < ((691201000 : Nat) : Int) - (x.createdAt : Int) → x.locked = true) ∧
    ¬ (∀ x ∈ (getExpenses 691201000 tripStore 7 foodOnly).2.expenses, x.group = 7 →
        7 * msPerDay < ((691201000 : Nat) : Int) - (x.createdAt : Int) → x.locked = true) ∧
    ¬ (∀ x ∈ (addComment 691201000 2 tripStore 100 (some "thanks") none).2.expenses,
        x.group = 7 →
        7 * msPerDay < ((691201000 : Nat) : Int) - (x.createdAt : Int) → x.locked = true) := by
  refine ⟨?_, ?_, ?_, ?_⟩
  · intro h
    have := h dinner (by simp [getGroupBalances, dinnerStore]) rfl (by decide)
    simp [dinner] at this
  · intro h
    have := h (⟨200, Body.settlements [⟨2, 1, Num.ofInt 3000⟩, ⟨3, 1, Num.ofInt 3000⟩]⟩,
      dinnerStore) rfl dinner (by simp [dinnerStore]) rfl (by decide)
    simp [dinner] at this
  · intro h
    have := h taxi (by decide) rfl (by decide)
    simp [taxi, dinner] at this
  · intro h
    have := h taxi (by decide) rfl (by decide)
    simp [taxi, dinner] at this

/-! ## Recorded settlements and residual imbalance -/

theorem addSettlement_expenses (st : Store) (req : AddSettlementRequest) :
    (addSettlement st req).2.expenses = st.expenses := by
  unfold addSettlement
  split
  · split <;> rfl
  · rfl

set_option maxRecDepth 100000 in
/-- C3 (amended): recorded settlements are not folded into the balances.
Recording a settlement changes neither the answer of `getGroupBalances` nor
that of `optimizeDebts`; after the 90.00 dinner and the recorded settlement of
30.00 from Bob to Alice the balances are still Alice +60.00, Bob -30.00,
Carol -30.00 and the plan is still Bob to Alice 30.00, Carol to Alice 30.00. -/
theorem settlements_not_folded (st : Store) (req : AddSettlementRequest)
    (groupId fuel : Nat) :
    (getGroupBalances (addSettlement st req).2 groupId).1 = (getGroupBalances st groupId).1 ∧
    (optimizeDebts fuel (addSettlement st req).2 groupId).map Prod.fst
      = (optimizeDebts fuel st groupId).map Prod.fst ∧
    (getGroupBalances (addSettlement dinnerStore bobPaysAlice).2 7).1
      = ⟨200, Body.balances (Balances.ofInts [(1, 6000), (2, -3000), (3, -3000)])⟩ ∧
    (optimizeDebts 3 (addSettlement dinnerStore bobPaysAlice).2 7).map Prod.fst
      = some ⟨200, Body.settlements [⟨2, 1, Num.ofInt 3000⟩, ⟨3, 1, Num.ofInt 3000⟩]⟩ := by
  have hexp : groupExpenses (addSettlement st req).2 groupId = groupExpenses st groupId := by
    simp only [groupExpenses, addSettlement_expenses]
  refine ⟨?_, ?_, rfl, rfl⟩
  · simp only [getGroupBalances, hexp]
  · simp only [optimizeDebts, hexp, Option.map_map]
    rfl

set_option maxRecDepth 100000 in
/-- C3 as stated fails: after the dinner expense and the recorded settlement
of 30.00 from Bob to Alice, the balances answered are not Alice +30.00,
Bob 0.00, Carol -30.00 with Bob outside the creditors and debtors: Bob's
balance is still -30.00 and Bob is a debtor of the optimizer. -/
theorem settlement_scenario_balances :
    (addSettlement dinnerStore bobPaysAlice).1.status = 201 ∧
    ¬ (∃ b, (getGroupBalances (addSettlement dinnerStore bobPaysAlice).2 7).1
          = ⟨200, Body.balances b⟩ ∧
        b.get 1 = Num.ofInt 3000 ∧ b.get 2 = Num.ofInt 0 ∧ b.get 3 = Num.ofInt (-3000) ∧
        2 ∉ (creditorsOf b).map Party.user ∧ 2 ∉ (debtorsOf b).map Party.user) := by
  refine ⟨rfl, ?_⟩
  rintro ⟨b, hb, h1, _⟩
  have hb' : b = Balances.ofInts [(1, 6000), (2, -3000), (3, -3000)] := by
    have : (getGroupBalances (addSettlement dinnerStore bobPaysAlice).2 7).1
        = ⟨200, Body.balances (Balances.ofInts [(1, 6000), (2, -3000), (3, -3000)])⟩ := rfl
    rw [this] at hb
    injection hb with _ hbody
    injection hbody with hbody
    exact hbody.symm
  subst hb'
  revert h1
  decide

theorem greedySettle_of_safe (n : Exact.Balances) (fuel : Nat)
    (hsafe : ∀ p ∈ n, p.2.natAbs < 2 ^ 53)
    (hfuel : enoughFuel (Balances.ofInts n) ≤ fuel) :
    ∃ planE : List Exact.Instruction,
      greedySettle fuel (Balances.ofInts n) = some (planE.map Instruction.ofExact) := by
  have hfuelE : (Exact.creditorsOf n).length + (Exact.debtorsOf n).length ≤ fuel := by
    unfold enoughFuel at hfuel
    rw [creditorsOf_ofInts, debtorsOf_ofInts, List.length_map, List.length_map] at hfuel
    exact hfuel
  obtain ⟨sE, hrunE, _, _⟩ := Exact.whileLoop_terminates_exact fuel (Exact.initState n)
    (by simp only [Exact.initState, List.drop_zero]; omega)
  obtain ⟨s', hrun, hset⟩ := whileLoop_sim fuel (Exact.initState n)
    (initState (Balances.ofInts n)) rfl
    (by simp [initState, Exact.initState, debtorsOf_ofInts])
    (by simp [initState, Exact.initState, creditorsOf_ofInts])
    (by simpa [Exact.initState] using Exact.debtorsOf_positive_exact n)
    (by simpa [Exact.initState] using Exact.creditorsOf_positive_exact n)
    (by simpa [Exact.initState] using Exact.debtorsOf_safe n hsafe)
    (by simpa [Exact.initState] using Exact.creditorsOf_safe n hsafe)
    sE hrunE
  exact ⟨sE.settlements, by simp [greedySettle, hrun, hset]⟩

theorem Instruction.ofExact_injective :
    Function.Injective Instruction.ofExact := by
  intro a b h
  cases a; cases b
  simp only [Instruction.ofExact, Instruction.mk.injEq, Num.ofInt_inj] at h
  simp [h]

/-- C9 (amended): whenever `optimizeDebts` answers, whatever the balances sum
to, its answer is status 200 with a body that is only the list of settlements,
and the store is left as it was; it does answer when the computed balances are
finite. When the balances are integers of magnitude below `2^53` that do not
sum to zero, applying the returned instructions, in exact arithmetic, leaves
some member with a non-zero balance. -/
theorem optimizeDebts_settlements_only (st : Store) (groupId fuel : Nat)
    (hfinite : ∀ p ∈ computeBalances (groupExpenses st groupId), p.2.isFinite = true)
    (hfuel : enoughFuel (computeBalances (groupExpenses st groupId)) ≤ fuel) :
    ∃ plan, optimizeDebts fuel st groupId = some (⟨200, Body.settlements plan⟩, st) ∧
      (∀ fuel' r, optimizeDebts fuel' st groupId = some r →
        ∃ plan', r = (⟨200, Body.settlements plan'⟩, st)) ∧
      (∀ n : Exact.Balances, computeBalances (groupExpenses st groupId) = Balances.ofInts n →
        (∀ p ∈ n, p.2.natAbs < 2 ^ 53) → n.total ≠ 0 →
        ∃ planE : List Exact.Instruction, plan = planE.map Instruction.ofExact ∧
          ∃ p ∈ Exact.applyPlan n planE, p.2 ≠ 0) := by
  obtain ⟨plan, hplan, h⟩ := optimizeDebts_returns st groupId fuel hfinite hfuel
  refine ⟨plan, h, fun fuel' r hr => optimizeDebts_answer st groupId fuel' r hr, ?_⟩
  intro n hn hsafe hne
  rw [hn] at hplan hfuel
  obtain ⟨planE, hE⟩ := greedySettle_of_safe n fuel hsafe hfuel
  rw [hplan] at hE
  injection hE with hE
  refine ⟨planE, hE, ?_⟩
  by_contra hall
  apply hne
  rw [← Exact.total_applyPlan_exact planE]
  apply Exact.total_eq_zero_of_all_zero_exact
  intro p hp
  by_contra hp0
  exact hall ⟨p, hp, hp0⟩

set_option maxRecDepth 100000 in
theorem optimizeDebts_settlements_only_witness :
    ∃ plan, optimizeDebts 2 unbalancedStore 7
        = some (⟨200, Body.settlements plan⟩, unbalancedStore) ∧
      (∀ fuel' r, optimizeDebts fuel' unbalancedStore 7 = some r →
        ∃ plan', r = (⟨200, Body.settlements plan'⟩, unbalancedStore)) ∧
      (∀ n : Exact.Balances,
        computeBalances (groupExpenses unbalancedStore 7) = Balances.ofInts n →
        (∀ p ∈ n, p.2.natAbs < 2 ^ 53) → n.total ≠ 0 →
        ∃ planE : List Exact.Instruction, plan = planE.map Instruction.ofExact ∧
          ∃ p ∈ Exact.applyPlan n planE, p.2 ≠ 0) :=
  optimizeDebts_settlements_only unbalancedStore 7 2 (by decide) (by decide)

set_option maxRecDepth 100000 in
/-- C9 as stated fails: the balances of the unbalanced store are 90.00 and
-30.00, which sum to 60.00, and the answer of `optimizeDebts` is a plain list
of settlements, with no diagnostic, after which user 1 is still owed 60.00. -/
theorem optimizeDebts_no_diagnostic :
    computeBalances (groupExpenses unbalancedStore 7)
      = Balances.ofInts [(1, 9000), (2, -3000)] ∧
    Exact.Balances.total [(1, 9000), (2, -3000)] = 6000 ∧
    (Balances.ofInts [(1, 9000), (2, -3000)]).total = Num.ofInt 6000 ∧
    optimizeDebts 2 unbalancedStore 7
      = some (⟨200, Body.settlements [⟨2, 1, Num.ofInt 3000⟩]⟩, unbalancedStore) ∧
    applyPlan (computeBalances (groupExpenses unbalancedStore 7)) [⟨2, 1, Num.ofInt 3000⟩]
      = Balances.ofInts [(1, 6000), (2, 0)] :=
  ⟨by decide, by decide, by decide, rfl, by decide⟩

end SplitPayment
